import Mathlib

/-!
Verification development for the RIFT forensics transaction-analysis engine
(`src/backend/logic.py`, function `analyze_transactions` and its helpers).

Modelling conventions:
* Monetary amounts and timestamps are rationals (`ℚ`); timestamps are measured
  in hours, matching the code's conversion `total_seconds() / 3600`.
* A raw input row carries `amount : Option ℚ` (`none` models an unparseable
  amount, which `pd.to_numeric(..., errors='coerce').fillna(0)` turns into 0)
  and `timestamp : Option ℚ` (`none` models a missing or unparseable
  timestamp).
* Library calls into networkx (`nx.pagerank`, `louvain_communities`,
  `nx.strongly_connected_components`, `nx.simple_cycles`) are not code of this
  repository; they enter the embedding as oracle parameters
  (`pagerank`, `community`, `sccs`, `cyclesOf`).  All invariant theorems are
  quantified over arbitrary oracles, which only strengthens them; concrete
  counterexamples instantiate the oracles with the mathematically exact values
  the libraries return on the given tiny graphs.
* `math.log10` forces the Benford computation into `ℝ`; those definitions are
  the only noncomputable ones.
* Python's `round(x, k)` is modelled as `roundTo k` (round to nearest, ties
  half-up as in Mathlib's `round`); no statement below depends on tie behaviour.
-/

attribute [local semireducible] Rat.add Rat.mul Rat.sub Rat.inv

namespace Rift

/-! ## Input rows and the normalizer (logic.py lines 98-108) -/

/-- Raw input row of the batch, one transaction. -/
structure Row where
  source : String
  target : String
  amount : Option ℚ
  timestamp : Option ℚ
deriving Repr, DecidableEq

/-- Cleaned row: amount coerced and made absolute, identifiers stripped. -/
structure CRow where
  source : String
  target : String
  amount : ℚ
  timestamp : Option ℚ
deriving Repr, DecidableEq

/-- Python `str.strip()`: remove leading and trailing whitespace. -/
def pyStrip (s : String) : String :=
  ⟨((s.data.dropWhile Char.isWhitespace).reverse.dropWhile Char.isWhitespace).reverse⟩

/-- Data-cleaning stage: strip identifiers, coerce amount
(`pd.to_numeric(...).fillna(0).abs()`), drop self-loops and non-positive
amounts (logic.py lines 99-105). -/
def clean (rows : List Row) : List CRow :=
  (rows.map fun r =>
      CRow.mk (pyStrip r.source) (pyStrip r.target) |r.amount.getD 0| r.timestamp).filter
    fun r => r.source != r.target && decide (0 < r.amount)

/-! ## Graph builder (logic.py lines 111-131) -/

/-- Attributes of a folded edge.  The code stores a single `timestamp`
(set when the edge is first created and never updated afterwards). -/
structure EdgeData where
  amount : ℚ
  count : ℕ
  timestamp : Option ℚ
deriving Repr, DecidableEq

/-- The edge dictionary of the directed graph, in insertion order. -/
abbrev EdgeList := List ((String × String) × EdgeData)

/-- Existing-edge update (logic.py lines 116-117): `amount += amt`,
`count += 1`, stored timestamp untouched. -/
def bumpEdge (r : CRow) (d : EdgeData) : EdgeData :=
  ⟨d.amount + r.amount, d.count + 1, d.timestamp⟩

/-- Fold one cleaned transaction into the edge dictionary
(logic.py lines 115-119): an existing `(source, target)` edge gets
`bumpEdge`; otherwise a new edge is created. -/
def addTxn (es : EdgeList) (r : CRow) : EdgeList :=
  if es.any fun e => e.1 = (r.source, r.target) then
    es.map fun e => if e.1 = (r.source, r.target) then (e.1, bumpEdge r e.2) else e
  else es ++ [((r.source, r.target), ⟨r.amount, 1, r.timestamp⟩)]

/-- Build the full edge dictionary from the cleaned batch. -/
def buildEdges (rows : List CRow) : EdgeList := rows.foldl addTxn []

/-- Register a node on first appearance (dict insertion order). -/
def addNode (ns : List String) (x : String) : List String :=
  if x ∈ ns then ns else ns ++ [x]

/-- Node list of the graph in insertion order (`G.add_edge` registers
the source and then the target of every row). -/
def buildNodes (rows : List CRow) : List String :=
  rows.foldl (fun ns r => addNode (addNode ns r.source) r.target) []

/-- Look up the ordered pair `(u, v)` in the edge dictionary. -/
def edgeLookup (es : EdgeList) (u v : String) : Option EdgeData :=
  (es.find? fun e => e.1 = (u, v)).map (·.2)

/-! ## Per-node features (logic.py lines 156-167) -/

/-- Total amount flowing into a node (sum over folded in-edges). -/
def inVolume (es : EdgeList) (n : String) : ℚ :=
  ((es.filter fun e => e.1.2 = n).map fun e => e.2.amount).sum

/-- Total amount flowing out of a node (sum over folded out-edges). -/
def outVolume (es : EdgeList) (n : String) : ℚ :=
  ((es.filter fun e => e.1.1 = n).map fun e => e.2.amount).sum

/-- In-degree: number of distinct senders (folded in-edges). -/
def inDeg (es : EdgeList) (n : String) : ℕ :=
  (es.filter fun e => e.1.2 = n).length

/-- Out-degree: number of distinct receivers (folded out-edges). -/
def outDeg (es : EdgeList) (n : String) : ℕ :=
  (es.filter fun e => e.1.1 = n).length

/-- Per-node list of incoming transaction amounts.  As in the code this is
drawn from the folded edges: one entry per in-edge, holding the edge's
aggregated amount (logic.py lines 162-165). -/
def inTxAmounts (es : EdgeList) (n : String) : List ℚ :=
  (es.filter fun e => e.1.2 = n).map fun e => e.2.amount

/-- Per-node list of incoming timestamps: one per folded in-edge whose stored
timestamp is present (logic.py lines 166-167). -/
def inTimestamps (es : EdgeList) (n : String) : List ℚ :=
  (es.filter fun e => e.1.2 = n).filterMap fun e => e.2.timestamp

/-! ## Velocity anomaly helper (logic.py lines 65-77) -/

/-- Maximum of a list of rationals (`ts.max()`), 0 on empty. -/
def listMax (l : List ℚ) : ℚ := l.foldl max (l.headD 0)

/-- Minimum of a list of rationals (`ts.min()`), 0 on empty. -/
def listMin (l : List ℚ) : ℚ := l.foldl min (l.headD 0)

/-- `_velocity_anomaly`: requires at least 5 incoming edge amounts and at
least 2 valid timestamps; the rate divides the timestamp count by the window
in hours, floored below at 1 hour (`max(window, 1)`). -/
def velocityAnomaly (timestamps : List ℚ) (node_in_edges : List ℚ) : Bool :=
  if node_in_edges.length < 5 then false
  else if timestamps.length < 2 then false
  else
    let window := listMax timestamps - listMin timestamps
    decide (20 < (timestamps.length : ℚ) / max window 1)

/-! ## Misc numeric helpers -/

/-- Python `round(q, k)`: round to `k` decimal places (ties half-up here;
nothing below depends on tie behaviour). -/
def roundTo (k : ℕ) (q : ℚ) : ℚ := (round (q * 10 ^ k) : ℚ) / 10 ^ k

/-- Pandas `Series.quantile(0.95)` with linear interpolation, used by
heuristic G (logic.py line 229). -/
def quantile95 (xs : List ℚ) : ℚ :=
  let s := List.insertionSort (· ≤ ·) xs
  let h : ℚ := ((s.length : ℚ) - 1) * (19 / 20)
  let i : ℕ := (⌊h⌋).toNat
  let lo := s.getD i 0
  let hi := s.getD (i + 1) lo
  lo + (h - (i : ℚ)) * (hi - lo)

/-! ## Node classification vocabulary -/

/-- Primary node type assigned by the detectors. -/
inductive NType
  | standard
  | mule
  | aggregator
  | source
  | ring_member
deriving Repr, DecidableEq

/-- Ring identifiers: `RING_nnn` for simple cycles, `COMPLEX_NET_nnn` for
over-sized strongly connected components; `nnn` is the shared counter. -/
inductive RingId
  | simple (n : ℕ)
  | complexNet (n : ℕ)
deriving Repr, DecidableEq

/-- Flag strings, abstracted to constructors carrying the formatted data. -/
inductive Flag
  | passThroughMule
  | smurfingAggregator
  | structuring (n : ℕ)
  | highInfluenceSource (pr : ℚ)
  | fanOutDispersion (n : ℕ)
  | velocityBurst
  | highValueIsolated
  | inRing (n : ℕ)
  | inMassiveNetwork
deriving Repr, DecidableEq

/-! ## Heuristic scorer (logic.py lines 169-244) -/

/-- Scorer output for one node. -/
structure ScoreResult where
  risk : ℤ
  type : NType
  flags : List Flag
  suspicious : Bool
deriving Repr, DecidableEq

/-- Heuristic A trigger: money mule pass-through (logic.py lines 182-184):
in and out volume both over 500 and net balance under 15% of total flow
(the code adds `1e-9` to the denominator). -/
def fireA (ci co : ℚ) : Bool :=
  decide (0 < ci + co) && decide (500 < ci) && decide (500 < co) &&
    decide (|ci - co| / (ci + co + 1 / 1000000000) < 15 / 100)

/-- Heuristic B trigger: smurfing aggregator (logic.py lines 191-193):
at least 5 in-edges, mean inflow under the reporting threshold, outflow over
80% of inflow. -/
def fireB (ci co : ℚ) (ind : ℕ) : Bool :=
  decide (5 ≤ ind) && decide (0 < ci) && decide (ci / (ind : ℚ) < 10000) &&
    decide (ci * (80 / 100) < co)

/-- Incoming transactions in the structuring band `[8000, 10000)`
(logic.py line 202). -/
def structuredOf (in_txs : List ℚ) : List ℚ :=
  in_txs.filter fun a => decide (8000 ≤ a) && decide (a < 10000)

/-- Heuristic C trigger: at least 3 near-threshold incoming transactions. -/
def fireC (in_txs : List ℚ) : Bool := decide (3 ≤ (structuredOf in_txs).length)

/-- Heuristic D trigger: PageRank over the kingpin threshold 0.04. -/
def fireD (pr : ℚ) : Bool := decide (1 / 25 < pr)

/-- Heuristic D inner condition (logic.py line 211): the flag and the
`source` type additionally require `out_vol > 1.5·in_vol` or `in_deg = 0`. -/
def fireDsub (ci co pr : ℚ) (ind : ℕ) : Bool :=
  fireD pr && (decide (ci * (3 / 2) < co) || decide (ind = 0))

/-- Heuristic E trigger: fan-out anomaly (logic.py line 218). -/
def fireE (ci co : ℚ) (outd : ℕ) : Bool :=
  decide (20 < outd) && decide (ci * 2 < co)

/-- Heuristic G trigger: isolated high-value singleton (logic.py line 229). -/
def fireG (ci co : ℚ) (ind outd : ℕ) (q95 : ℚ) : Bool :=
  decide (ind + outd ≤ 2) && decide (q95 * 3 < ci + co)

/-- The seven detectors A-G applied to one node's features, in order
(logic.py lines 169-244).  The code accumulates `risk` with `+=` and appends
flags sequentially; the sum of per-detector contributions and the ordered
concatenation of the per-detector flag lists below are the same values.  The
primary-type chain is sequential because B and D only assign when the type
is still `standard`, while A assigns unconditionally. -/
def scoreNode (ci co pr : ℚ) (ind outd : ℕ) (in_txs : List ℚ) (in_ts : List ℚ)
    (q95 : ℚ) : ScoreResult :=
  let riskA : ℤ := if fireA ci co then 45 else 0
  let riskB : ℤ := if fireB ci co ind then 35 else 0
  -- line 205: 25 points plus 5 per structured transaction beyond 3, capped at 20
  let riskC : ℤ :=
    if fireC in_txs then 25 + min (5 * (((structuredOf in_txs).length : ℤ) - 3)) 20
    else 0
  -- line 210: the scaled PageRank bonus is added whenever `fireD` holds
  let riskD : ℤ := if fireD pr then ⌊pr * 400⌋ else 0
  let riskE : ℤ := if fireE ci co outd then 20 else 0
  let riskF : ℤ := if velocityAnomaly in_ts in_txs then 20 else 0
  let riskG : ℤ := if fireG ci co ind outd q95 then 25 else 0
  let typeA : NType := if fireA ci co then NType.mule else NType.standard
  let typeB : NType :=
    if fireB ci co ind ∧ typeA = NType.standard then NType.aggregator else typeA
  let typeD : NType :=
    if fireDsub ci co pr ind ∧ typeB = NType.standard then NType.source else typeB
  let flags : List Flag :=
    (if fireA ci co then [Flag.passThroughMule] else []) ++
    (if fireB ci co ind then [Flag.smurfingAggregator] else []) ++
    (if fireC in_txs then [Flag.structuring (structuredOf in_txs).length] else []) ++
    (if fireDsub ci co pr ind then [Flag.highInfluenceSource pr] else []) ++
    (if fireE ci co outd then [Flag.fanOutDispersion outd] else []) ++
    (if velocityAnomaly in_ts in_txs then [Flag.velocityBurst] else []) ++
    (if fireG ci co ind outd q95 then [Flag.highValueIsolated] else [])
  -- cap and suspicious derivation (lines 233-234)
  let risk := min (riskA + riskB + riskC + riskD + riskE + riskF + riskG) 100
  ⟨risk, typeD, flags, decide (10 < risk) || decide (flags ≠ [])⟩

/-- Node attribute record (logic.py lines 122-131 and 236-244). -/
structure NodeAttrs where
  risk_score : ℤ
  type : NType
  suspicious : Bool
  community : ℕ
  pagerank : ℚ
  rings : List RingId
  flags : List Flag
  in_volume : ℚ
  out_volume : ℚ
  in_degree : ℕ
  out_degree : ℕ
deriving Repr, DecidableEq

/-- Run the scorer over every node (insertion order), producing the node
attribute dictionary.  `pagerank` and `community` are the oracle results of
`nx.pagerank` and the community stage. -/
def scoreAll (es : EdgeList) (nodes : List String) (pagerank : String → ℚ)
    (community : String → ℕ) (q95 : ℚ) : List (String × NodeAttrs) :=
  nodes.map fun n =>
    let s := scoreNode (inVolume es n) (outVolume es n) (pagerank n) (inDeg es n)
      (outDeg es n) (inTxAmounts es n) (inTimestamps es n) q95
    (n, { risk_score := s.risk, type := s.type, suspicious := s.suspicious,
          community := community n, pagerank := roundTo 5 (pagerank n), rings := [],
          flags := s.flags, in_volume := roundTo 2 (inVolume es n),
          out_volume := roundTo 2 (outVolume es n), in_degree := inDeg es n,
          out_degree := outDeg es n })

/-! ## Ring detector (logic.py lines 246-312) -/

/-- One recorded ring (simple cycle or complex network). -/
structure RingRec where
  id : RingId
  nodes : List String
  volume : ℚ
  complexNote : Bool
deriving Repr, DecidableEq

/-- State threaded through the ring-detection loop: the shared counter, the
recorded rings, the `node_rings` membership map and the node attributes. -/
structure RingState where
  counter : ℕ
  rings : List RingRec
  nodeRings : List (String × List RingId)
  attrs : List (String × NodeAttrs)
deriving Repr, DecidableEq

/-- Update the attribute record of node `n` in the dictionary (no-op for
absent keys; in the code every updated node is a graph node). -/
def updAttr (m : List (String × NodeAttrs)) (n : String)
    (f : NodeAttrs → NodeAttrs) : List (String × NodeAttrs) :=
  m.map fun p => if p.1 = n then (p.1, f p.2) else p

/-- `node_rings[node].append(rid)` on a `defaultdict(list)`. -/
def pushRing (m : List (String × List RingId)) (n : String) (rid : RingId) :
    List (String × List RingId) :=
  if m.any fun p => p.1 = n then
    m.map fun p => if p.1 = n then (p.1, p.2 ++ [rid]) else p
  else m ++ [(n, [rid])]

/-- Ring list of a node in the membership map (empty when absent). -/
def ringsOf (m : List (String × List RingId)) (n : String) : List RingId :=
  ((m.find? fun p => p.1 = n).map (·.2)).getD []

/-- Volume of a simple cycle: sum of edge amounts around the cycle
(logic.py lines 273-277). -/
def cycleVolume (es : EdgeList) (cycle : List String) : ℚ :=
  ((List.range cycle.length).map fun i =>
    match edgeLookup es (cycle.getD i "") (cycle.getD ((i + 1) % cycle.length) "") with
    | some d => d.amount
    | none => 0).sum

/-- `G.degree(x)`: total degree, used to pick the top-10 of a complex SCC. -/
def degreeOf (es : EdgeList) (n : String) : ℕ := inDeg es n + outDeg es n

/-- Volume of a complex network: sum of edge amounts inside the induced
subgraph (logic.py line 296). -/
def sccVolume (es : EdgeList) (scc : List String) : ℚ :=
  ((es.filter fun e => decide (e.1.1 ∈ scc) && decide (e.1.2 ∈ scc)).map
    fun e => e.2.amount).sum

/-- Per-member update for a retained simple cycle (logic.py lines 281-286):
`+50` capped at 100, forced suspicious, type becomes `ring_member` only when
still `standard`, flag `in RING_nnn` appended. -/
def cycleNodeUpdate (rid : ℕ) (a : NodeAttrs) : NodeAttrs :=
  { a with
    risk_score := min (a.risk_score + 50) 100
    suspicious := true
    type := if a.type = NType.standard then NType.ring_member else a.type
    flags := a.flags ++ [Flag.inRing rid] }

/-- Per-member update for a complex network (logic.py lines 300-305):
risk forced to 100, suspicious, type forced to `ring_member`, constant flag. -/
def complexNodeUpdate (a : NodeAttrs) : NodeAttrs :=
  { a with
    risk_score := 100
    suspicious := true
    type := NType.ring_member
    flags := a.flags ++ [Flag.inMassiveNetwork] }

/-- Process one enumerated cycle of a small SCC: retained when its length is
in `(2, 8]` (logic.py lines 267-286).  The code interleaves the attribute
update and the `node_rings` append per node; the two folds below touch
distinct state components and yield the same final state. -/
def applyCycle (es : EdgeList) (st : RingState) (cycle : List String) : RingState :=
  if 2 < cycle.length ∧ cycle.length ≤ 8 then
    let c := st.counter + 1
    { counter := c,
      rings := st.rings ++ [⟨RingId.simple c, cycle, cycleVolume es cycle, false⟩],
      nodeRings := cycle.foldl (fun m n => pushRing m n (RingId.simple c)) st.nodeRings,
      attrs := cycle.foldl (fun a n => updAttr a n (cycleNodeUpdate c)) st.attrs }
  else st

/-- Process one over-sized SCC as a complex network (logic.py lines 287-305). -/
def applyComplex (es : EdgeList) (st : RingState) (scc : List String) : RingState :=
  let c := st.counter + 1
  let top := (List.insertionSort (fun a b => degreeOf es b ≤ degreeOf es a) scc).take 10
  { counter := c,
    rings := st.rings ++ [⟨RingId.complexNet c, top, sccVolume es scc, true⟩],
    nodeRings := scc.foldl (fun m n => pushRing m n (RingId.complexNet c)) st.nodeRings,
    attrs := scc.foldl (fun a n => updAttr a n complexNodeUpdate) st.attrs }

/-- Dispatch one non-trivial SCC: exact cycle search up to size 100,
complex-network handling above (logic.py lines 260-305).  `cyclesOf` is the
`nx.simple_cycles` oracle. -/
def ringStep (es : EdgeList) (cyclesOf : List String → List (List String))
    (st : RingState) (scc : List String) : RingState :=
  if scc.length ≤ 100 then (cyclesOf scc).foldl (applyCycle es) st
  else applyComplex es st scc

/-- The full ring-detection pass over the SCC decomposition oracle `sccs`:
trivial components are discarded, the rest processed in order. -/
def ringDetect (es : EdgeList) (sccs : List (List String))
    (cyclesOf : List String → List (List String))
    (attrs0 : List (String × NodeAttrs)) : RingState :=
  (sccs.filter fun s => 1 < s.length).foldl (ringStep es cyclesOf) ⟨0, [], [], attrs0⟩

/-- Final `rings` attribute assignment (logic.py lines 311-312). -/
def applyRings (st : RingState) : List (String × NodeAttrs) :=
  st.nodeRings.foldl (fun a p => updAttr a p.1 fun x => { x with rings := p.2 }) st.attrs

/-! ## Benford statistics (logic.py lines 31-55 and 314-320)

`math.log10` forces these definitions into `ℝ`; they are the only
noncomputable part of the embedding. -/

/-- Leading decimal digit of a natural number (`str(n)[0]` as an integer). -/
def firstDigit (n : ℕ) : ℕ :=
  if _h : n < 10 then n else firstDigit (n / 10)
termination_by n
decreasing_by exact Nat.div_lt_self (by omega) (by omega)

/-- The counting loop of `_first_digit_distribution`: per-digit counts and the
total over transactions with `amount ≥ 1` (`int(a)` truncates, which is the
floor for `a ≥ 1`). -/
def digitTally (amounts : List ℚ) : (ℕ → ℕ) × ℕ :=
  amounts.foldl
    (fun ct a =>
      if 1 ≤ a then
        (Function.update ct.1 (firstDigit (⌊a⌋).toNat)
            (ct.1 (firstDigit (⌊a⌋).toNat) + 1),
          ct.2 + 1)
      else ct)
    (fun _ => 0, 0)

/-- `empirical.get(d, 0)` of `_benford_deviation`: the empirical first-digit
frequency, 0 for every digit when no transaction has `amount ≥ 1` (the
distribution function returns the empty dict then). -/
def empirical (amounts : List ℚ) (d : ℕ) : ℚ :=
  if (digitTally amounts).2 = 0 then 0
  else ((digitTally amounts).1 d : ℚ) / ((digitTally amounts).2 : ℚ)

/-- The Benford expectation `log10(1 + 1/d)`. -/
noncomputable def benfordExpected (d : ℕ) : ℝ := Real.logb 10 (1 + 1 / (d : ℝ))

/-- Python `round(x, 4)` on the real result. -/
noncomputable def roundTo4R (x : ℝ) : ℝ := (round (x * 10000) : ℝ) / 10000

/-- `_benford_deviation`: 0 when the batch holds fewer than 100 cleaned
transactions (the guard is `len(amounts) < 100`, counting every transaction,
not only those with `amount ≥ 1`); otherwise the chi-square-like deviation. -/
noncomputable def benfordDeviation (amounts : List ℚ) : ℝ :=
  if amounts.length < 100 then 0
  else roundTo4R (∑ d in Finset.Icc 1 9,
    ((empirical amounts d : ℝ) - benfordExpected d) ^ 2 / benfordExpected d)

open Classical in
/-- Benford classification thresholds (logic.py lines 316-320). -/
noncomputable def benfordStatus (amounts : List ℚ) : String :=
  if 1 / 20 < benfordDeviation amounts then "Suspicious"
  else if 1 / 50 < benfordDeviation amounts then "Slight deviation"
  else "Normal"

/-! ## Dataset-level structuring (logic.py lines 58-62 and 322-324) -/

/-- `_detect_structuring`: the transactions in the `[8000, 10000)` band. -/
def detectStructuring (amounts : List ℚ) : List ℚ :=
  amounts.filter fun a => decide (8000 ≤ a) && decide (a < 10000)

/-- Percentage of structured transactions, rounded to 1 decimal. -/
def structuringPct (amounts : List ℚ) : ℚ :=
  roundTo 1 (100 * ((detectStructuring amounts).length : ℚ) /
    max (amounts.length : ℚ) 1)

/-! ## Result assembly (logic.py lines 326-425) -/

/-- Entry of the flagged-accounts table (logic.py lines 330-341).  The
`reason` field of the code is the flags joined by a separator, or a fixed
fallback string when there are none: a pure rendering of `flags`, omitted
here. -/
structure Account where
  id : String
  risk_score : ℚ
  type : NType
  community : ℕ
  pagerank : ℚ
  in_volume : ℚ
  out_volume : ℚ
  flags : List Flag
  rings : List RingId
deriving Repr, DecidableEq

/-- Serialise one suspicious node into its table entry. -/
def mkAccount (n : String) (a : NodeAttrs) : Account :=
  ⟨n, roundTo 1 (a.risk_score : ℚ), a.type, a.community, roundTo 5 a.pagerank,
    a.in_volume, a.out_volume, a.flags, a.rings⟩

/-- The suspicious accounts in node insertion order, before sorting
(logic.py lines 327-341). -/
def flaggedUnsorted (attrs : List (String × NodeAttrs)) : List Account :=
  (attrs.filter fun p => p.2.suspicious).map fun p => mkAccount p.1 p.2

/-- Python `list.sort(key=risk_score, reverse=True)` (logic.py line 344) is a
stable descending sort on the risk score; insertion sort with the relation
below is stable in the same way. -/
def flaggedSort (l : List Account) : List Account :=
  List.insertionSort (fun x y => y.risk_score ≤ x.risk_score) l

/-- Ring table entry (logic.py lines 347-356). -/
structure FormattedRing where
  ring_id : RingId
  member_accounts : List String
  member_count : ℕ
  cycle_volume : ℚ
  pattern_type : String
  risk_score : ℚ
deriving Repr, DecidableEq

/-- Serialise one ring record. -/
def formatRing (r : RingRec) : FormattedRing :=
  ⟨r.id, r.nodes, r.nodes.length, roundTo 2 r.volume, "Circular Flow", 90⟩

/-- Node payload of a Cytoscape element (logic.py lines 360-375). -/
structure NodeElem where
  id : String
  risk_score : ℚ
  type : NType
  suspicious : Bool
  community : ℕ
  pagerank : ℚ
  rings : List RingId
  flags : List Flag
  in_volume : ℚ
  out_volume : ℚ
deriving Repr, DecidableEq

/-- Edge payload of a Cytoscape element (logic.py lines 377-389). -/
structure EdgeElem where
  source : String
  target : String
  amount : ℚ
  count : ℕ
  timestamp : Option ℚ
  suspicious : Bool
deriving Repr, DecidableEq

/-- One serialised graph element. -/
inductive Element
  | node (d : NodeElem)
  | edge (d : EdgeElem)
deriving Repr, DecidableEq

/-- Attribute lookup used by the edge serialiser (`G.nodes[u]`); both
endpoints of every edge are graph nodes. -/
def lookupAttrs (attrs : List (String × NodeAttrs)) (n : String) : NodeAttrs :=
  ((attrs.find? fun p => p.1 = n).map (·.2)).getD
    ⟨0, NType.standard, false, 0, 0, [], [], 0, 0, 0, 0⟩

/-- Cytoscape serialisation: all nodes (insertion order), then all edges; an
edge is suspicious when either endpoint is. -/
def elementsOf (es : EdgeList) (attrs : List (String × NodeAttrs)) : List Element :=
  (attrs.map fun p =>
    Element.node ⟨p.1, roundTo 1 (p.2.risk_score : ℚ), p.2.type, p.2.suspicious,
      p.2.community, roundTo 5 p.2.pagerank, p.2.rings, p.2.flags, p.2.in_volume,
      p.2.out_volume⟩) ++
  es.map fun e =>
    Element.edge ⟨e.1.1, e.1.2, roundTo 2 e.2.amount, e.2.count, e.2.timestamp,
      (lookupAttrs attrs e.1.1).suspicious || (lookupAttrs attrs e.1.2).suspicious⟩

/-- `nx.density` of a directed graph: `m / (n·(n−1))`, 0 for `m = 0` or
`n ≤ 1`. -/
def density (n m : ℕ) : ℚ :=
  if m = 0 ∨ n ≤ 1 then 0 else (m : ℚ) / ((n : ℚ) * ((n : ℚ) - 1))

/-- Summary metrics (logic.py lines 392-407). -/
structure Metrics where
  total_nodes : ℕ
  total_edges : ℕ
  total_transactions : ℕ
  total_volume : ℚ
  suspicious_count : ℕ
  rings_count : ℕ
  high_risk_count : ℕ
  graph_density : ℚ
  avg_risk_score : ℚ
  benford_status : String
  benford_deviation : ℝ
  structuring_pct : ℚ
  structured_txn_count : ℕ

/-- The compact `summary` projection (logic.py lines 416-424). -/
structure Summary where
  total_nodes : ℕ
  total_transactions : ℕ
  suspicious_count : ℕ
  rings_count : ℕ
  benford_status : String
  high_risk_count : ℕ
  structuring_pct : ℚ
deriving Repr, DecidableEq

/-- Projection of the metrics into the summary block. -/
def summaryOfMetrics (m : Metrics) : Summary :=
  ⟨m.total_nodes, m.total_transactions, m.suspicious_count, m.rings_count,
    m.benford_status, m.high_risk_count, m.structuring_pct⟩

/-- The result document.  The empty-input early return (logic.py line 108)
carries only the four list/dict fields; `metrics`, `suspicious_accounts` and
`summary` are `none` there and `some` in the full document. -/
structure ResultDoc where
  elements : List Element
  metrics : Option Metrics
  flagged_accounts : List Account
  fraud_rings : List FormattedRing
  suspicious_accounts : Option (List Account)
  summary : Option Summary

/-- The full pipeline `analyze_transactions`.  `pagerank`, `community`,
`sccs` and `cyclesOf` are the oracle results of the networkx library calls
(PageRank, Louvain/WCC labels, strongly connected components, simple-cycle
enumeration); everything else is translated from logic.py. -/
noncomputable def analyze (rows : List Row) (pagerank : String → ℚ)
    (community : String → ℕ) (sccs : List (List String))
    (cyclesOf : List String → List (List String)) : ResultDoc :=
  if clean rows = [] then ⟨[], none, [], [], none, none⟩
  else
    let df := clean rows
    let es := buildEdges df
    let nodes := buildNodes df
    let amounts := df.map (·.amount)
    let attrs0 := scoreAll es nodes pagerank community (quantile95 amounts)
    let st := ringDetect es sccs cyclesOf attrs0
    let attrs := applyRings st
    let flagged := flaggedSort (flaggedUnsorted attrs)
    let frings := st.rings.map formatRing
    let m : Metrics :=
      { total_nodes := nodes.length
        total_edges := es.length
        total_transactions := df.length
        total_volume := roundTo 2 amounts.sum
        suspicious_count := flagged.length
        rings_count := frings.length
        high_risk_count := (attrs.filter fun p => decide (70 ≤ p.2.risk_score)).length
        graph_density := roundTo 6 (density nodes.length es.length)
        avg_risk_score := roundTo 2 (if attrs.length = 0 then 0 else
          (attrs.map fun p => (p.2.risk_score : ℚ)).sum / (attrs.length : ℚ))
        benford_status := benfordStatus amounts
        benford_deviation := benfordDeviation amounts
        structuring_pct := structuringPct amounts
        structured_txn_count := (detectStructuring amounts).length }
    ⟨elementsOf es attrs, some m, flagged, frings, some flagged,
      some (summaryOfMetrics m)⟩

/-- The node-attribute dictionary after the ring detector and the final
`rings` assignment — the state the result assembler serialises.  Definitional
shorthand for the corresponding stage inside `analyze`. -/
def finalAttrs (rows : List Row) (pagerank : String → ℚ) (community : String → ℕ)
    (sccs : List (List String)) (cyclesOf : List String → List (List String)) :
    List (String × NodeAttrs) :=
  let df := clean rows
  let es := buildEdges df
  applyRings (ringDetect es sccs cyclesOf
    (scoreAll es (buildNodes df) pagerank community (quantile95 (df.map (·.amount)))))

/-! ## Concrete batches used by witnesses and counterexamples -/

/-- A three-transaction directed cycle `C → B → A → C` of 1000 each.  All
three accounts have identical features, fire the mule detector and detector
D, and close a simple 3-cycle. -/
def rows3 : List Row :=
  [⟨"C", "B", some 1000, none⟩, ⟨"B", "A", some 1000, none⟩, ⟨"A", "C", some 1000, none⟩]

/-- Exact PageRank of the symmetric 3-cycle: the uniform vector `1/3` is the
fixed point of the damped walk, so `nx.pagerank` converges to it. -/
def pr3 : String → ℚ := fun _ => 1 / 3

/-- Community oracle: the triangle is a single community labelled 0. -/
def comm3 : String → ℕ := fun _ => 0

/-- SCC oracle for `rows3`: one strongly connected component. -/
def sccs3 : List (List String) := [["C", "B", "A"]]

/-- Simple-cycle oracle for `rows3`: the single elementary 3-cycle. -/
def cyc3 : List String → List (List String) := fun _ => [["C", "B", "A"]]

/-- A three-transaction cycle `F → E → D → F` of 100 each: amounts are too
small for any volume detector, so all three nodes stay `standard` until the
ring detector retypes them. -/
def rowsStd : List Row :=
  [⟨"F", "E", some 100, none⟩, ⟨"E", "D", some 100, none⟩, ⟨"D", "F", some 100, none⟩]

/-- SCC oracle for `rowsStd`. -/
def sccsStd : List (List String) := [["F", "E", "D"]]

/-- Simple-cycle oracle for `rowsStd`. -/
def cycStd : List String → List (List String) := fun _ => [["F", "E", "D"]]

/-- The serialised element of node `C` in the analysis of `rows3`. -/
def elemC : NodeElem :=
  ⟨"C", 100, NType.mule, true, 0, 33333 / 100000, [RingId.simple 1],
    [Flag.passThroughMule, Flag.inRing 1], 1000, 1000⟩

/-- The flagged-account entries of `rows3` (all identical except the id). -/
def accOf (n : String) : Account :=
  ⟨n, 100, NType.mule, 0, 33333 / 100000, 1000, 1000,
    [Flag.passThroughMule, Flag.inRing 1], [RingId.simple 1]⟩

/-- The serialised element of node `F` in the analysis of `rowsStd`. -/
def elemF : NodeElem :=
  ⟨"F", 100, NType.ring_member, true, 0, 33333 / 100000, [RingId.simple 1],
    [Flag.inRing 1], 100, 100⟩

/-- A batch of 100 transactions of amount 1/2 each: 100 cleaned rows, none
of which has `amount ≥ 1`. -/
def amountsHalf : List ℚ := List.replicate 100 (1 / 2)

/-! ## Spec-side graph builder, for comparison with the code (claim C7) -/

/-- Edge record as §4.2 of the spec describes it: with a timestamp list. -/
structure SpecEdgeData where
  amount : ℚ
  count : ℕ
  timestamps : List (Option ℚ)
deriving Repr, DecidableEq

/-- Modelled from the spec (§4.2 Graph Builder), for refinement comparison
only: "if `(u,v)` exists, increment its `amount` by `amt`, increment `count`
by 1, append `ts` to its timestamp list; else create the edge with those
values." -/
def addTxnSpec (es : List ((String × String) × SpecEdgeData)) (r : CRow) :
    List ((String × String) × SpecEdgeData) :=
  if es.any fun e => e.1 = (r.source, r.target) then
    es.map fun e =>
      if e.1 = (r.source, r.target) then
        (e.1, ⟨e.2.amount + r.amount, e.2.count + 1, e.2.timestamps ++ [r.timestamp]⟩)
      else e
  else es ++ [((r.source, r.target), ⟨r.amount, 1, [r.timestamp]⟩)]

/-- Spec-side folded graph. -/
def buildEdgesSpec (rows : List CRow) : List ((String × String) × SpecEdgeData) :=
  rows.foldl addTxnSpec []

/-- Empirical first-digit frequency written in the spec's style (§4.7): a
count over the eligible transactions divided by their number.  Used to
compare the code's counting fold against the spec's formula. -/
def empiricalSpec (amounts : List ℚ) (d : ℕ) : ℚ :=
  let elig := amounts.filter fun a => decide (1 ≤ a)
  if elig.length = 0 then 0
  else ((elig.countP fun a => decide (firstDigit (⌊a⌋).toNat = d)) : ℚ) / (elig.length : ℚ)

end Rift

/-! # Theorems -/

namespace Rift

/-- Claim C9: if the cleaned input is empty after normalization (all rows
dropped for self-loop or non-positive amount, or the batch was empty), the
engine returns the document
`{elements: [], metrics: {}, flagged_accounts: [], fraud_rings: []}` and does
not raise an error. -/
theorem C9_empty_result (rows : List Row) (pagerank : String → ℚ)
    (community : String → ℕ) (sccs : List (List String))
    (cyclesOf : List String → List (List String)) (h : clean rows = []) :
    analyze rows pagerank community sccs cyclesOf = ⟨[], none, [], [], none, none⟩ := by
  unfold analyze
  rw [if_pos h]

/-- Witness for C9 at a concrete batch: a single self-loop row (after
whitespace stripping) cleans to the empty list, so the engine answers with
the empty document. -/
theorem C9_empty_result_witness :
    clean [⟨" A ", "A", some 5, none⟩] = [] ∧
      analyze [⟨" A ", "A", some 5, none⟩] pr3 comm3 [] (fun _ => []) =
        ⟨[], none, [], [], none, none⟩ :=
  ⟨by decide, C9_empty_result _ pr3 comm3 [] (fun _ => []) (by decide)⟩

/-- Claim C10: a non-empty cleaned input additionally yields the legacy key
`suspicious_accounts`, equal to `flagged_accounts`, and a `summary` object
whose seven fields are copied from `metrics`; the empty-input document
contains neither. -/
theorem C10_alias_and_summary (rows : List Row) (pagerank : String → ℚ)
    (community : String → ℕ) (sccs : List (List String))
    (cyclesOf : List String → List (List String)) :
    (clean rows ≠ [] →
      (analyze rows pagerank community sccs cyclesOf).suspicious_accounts =
          some (analyze rows pagerank community sccs cyclesOf).flagged_accounts ∧
        (analyze rows pagerank community sccs cyclesOf).metrics ≠ none ∧
        (analyze rows pagerank community sccs cyclesOf).summary =
          (analyze rows pagerank community sccs cyclesOf).metrics.map fun m =>
            ⟨m.total_nodes, m.total_transactions, m.suspicious_count, m.rings_count,
              m.benford_status, m.high_risk_count, m.structuring_pct⟩) ∧
    (clean rows = [] →
      (analyze rows pagerank community sccs cyclesOf).suspicious_accounts = none ∧
        (analyze rows pagerank community sccs cyclesOf).summary = none) := by
  unfold analyze
  by_cases h : clean rows = []
  · rw [if_pos h]
    exact ⟨fun hc => absurd h hc, fun _ => ⟨rfl, rfl⟩⟩
  · rw [if_neg h]
    exact ⟨fun _ => ⟨rfl, by simp, rfl⟩, fun hc => absurd hc h⟩

/-- Witness for C10 at the concrete cycle batch `rows3`: the cleaned input is
non-empty and the legacy alias is present and equal to the flagged list. -/
theorem C10_alias_and_summary_witness :
    clean rows3 ≠ [] ∧
      (analyze rows3 pr3 comm3 sccs3 cyc3).suspicious_accounts =
        some (analyze rows3 pr3 comm3 sccs3 cyc3).flagged_accounts :=
  ⟨by decide, ((C10_alias_and_summary rows3 pr3 comm3 sccs3 cyc3).1 (by decide)).1⟩

/-! ## Graph-builder lemmas (claim C7) -/

/-- Updating the edge keyed `(u, v)` in place commutes with looking that key
up: the first match is mapped, everything else left alone. -/
theorem find?_map_upd (u v : String) (f : EdgeData → EdgeData) (es : EdgeList) :
    ((es.map fun e => if e.1 = (u, v) then (e.1, f e.2) else e).find?
        fun e => decide (e.1 = (u, v))) =
      (es.find? fun e => decide (e.1 = (u, v))).map fun e => (e.1, f e.2) := by
  induction es with
  | nil => rfl
  | cons a es ih =>
    rw [List.map_cons]
    by_cases h : a.1 = (u, v)
    · rw [if_pos h, List.find?_cons_of_pos _ (by simpa using h),
        List.find?_cons_of_pos _ (by simpa using h)]
      rfl
    · rw [if_neg h, List.find?_cons_of_neg _ (by simpa using h),
        List.find?_cons_of_neg _ (by simpa using h), ih]

/-- Updating the edge keyed `(u, v)` leaves lookups of any other key
unchanged. -/
theorem find?_map_upd_ne (u v u' v' : String) (f : EdgeData → EdgeData)
    (hne : (u', v') ≠ (u, v)) (es : EdgeList) :
    ((es.map fun e => if e.1 = (u, v) then (e.1, f e.2) else e).find?
        fun e => decide (e.1 = (u', v'))) =
      es.find? fun e => decide (e.1 = (u', v')) := by
  induction es with
  | nil => rfl
  | cons a es ih =>
    rw [List.map_cons]
    by_cases h : a.1 = (u, v)
    · have h' : ¬a.1 = (u', v') := fun hh => hne (hh ▸ h ▸ rfl)
      rw [if_pos h, List.find?_cons_of_neg _ (by simp [← h, h']),
        List.find?_cons_of_neg _ (by simpa using h'), ih]
    · rw [if_neg h]
      by_cases h' : a.1 = (u', v')
      · rw [List.find?_cons_of_pos _ (by simpa using h'),
          List.find?_cons_of_pos _ (by simpa using h')]
      · rw [List.find?_cons_of_neg _ (by simpa using h'),
          List.find?_cons_of_neg _ (by simpa using h'), ih]

/-- Claim C7, counterexample: two transactions on the same ordered pair.  The
code folds them into one edge holding only the first timestamp — the second
timestamp `2` is recorded nowhere — while the spec's builder would hold the
timestamp list `[1, 2]`.  There is no per-edge timestamp list to append to in
the code: `G.add_edge(..., timestamp=ts)` stores a single value and the
existing-edge branch never touches it. -/
theorem C7_fold_cex :
    buildEdges [⟨"A", "B", 5, some 1⟩, ⟨"A", "B", 7, some 2⟩] =
        [(("A", "B"), ⟨12, 2, some 1⟩)] ∧
      buildEdgesSpec [⟨"A", "B", 5, some 1⟩, ⟨"A", "B", 7, some 2⟩] =
        [(("A", "B"), ⟨12, 2, [some 1, some 2]⟩)] := by
  exact ⟨by decide, by decide⟩

/-- Claim C7, amended: when the ordered pair `(source, target)` already has
an edge, an incoming transaction increments that edge's `amount` by `amt` and
its `count` by 1 but keeps the stored timestamp of the first transaction (the
new timestamp is discarded); otherwise a new edge is created carrying the
transaction's values.  Lookups of other pairs are unaffected. -/
theorem C7_fold_amended (es : EdgeList) (r : CRow) :
    (∀ d, edgeLookup es r.source r.target = some d →
      edgeLookup (addTxn es r) r.source r.target =
        some ⟨d.amount + r.amount, d.count + 1, d.timestamp⟩) ∧
    (edgeLookup es r.source r.target = none →
      edgeLookup (addTxn es r) r.source r.target = some ⟨r.amount, 1, r.timestamp⟩) ∧
    ∀ u v, (u, v) ≠ (r.source, r.target) →
      edgeLookup (addTxn es r) u v = edgeLookup es u v := by
  refine ⟨?_, ?_, ?_⟩
  · intro d hd
    obtain ⟨e, he, he2⟩ : ∃ e, (es.find? fun e => decide (e.1 = (r.source, r.target))) =
        some e ∧ e.2 = d := by
      rcases hfind : es.find? fun e => decide (e.1 = (r.source, r.target)) with _ | e
      · rw [edgeLookup, hfind] at hd; cases hd
      · rw [edgeLookup, hfind] at hd
        exact ⟨e, hfind, by simpa using hd⟩
    have hany : (es.any fun e => decide (e.1 = (r.source, r.target))) = true := by
      have hmem := List.mem_of_find?_eq_some he
      have hp := List.find?_some he
      exact List.any_eq_true.2 ⟨e, hmem, by simpa using hp⟩
    rw [addTxn, if_pos hany, edgeLookup,
      find?_map_upd r.source r.target (bumpEdge r) es, he]
    rw [← he2]
    rfl
  · intro hn
    have hfind : (es.find? fun e => decide (e.1 = (r.source, r.target))) = none := by
      rcases hfind : es.find? fun e => decide (e.1 = (r.source, r.target)) with _ | e
      · exact hfind
      · rw [edgeLookup, hfind] at hn; cases hn
    have hany : ¬(es.any fun e => decide (e.1 = (r.source, r.target))) = true := by
      rw [List.any_eq_true]
      rintro ⟨e, he, hp⟩
      exact absurd (by simpa using hp) (by simpa using List.find?_eq_none.1 hfind e he)
    rw [addTxn, if_neg hany, edgeLookup, List.find?_append, hfind]
    rw [List.find?_cons_of_pos _ (by simp)]
    rfl
  · intro u v huv
    rw [addTxn]
    by_cases hany : (es.any fun e => decide (e.1 = (r.source, r.target))) = true
    · rw [if_pos hany, edgeLookup, edgeLookup,
        find?_map_upd_ne r.source r.target u v (bumpEdge r) huv es]
    · rw [if_neg hany, edgeLookup, edgeLookup, List.find?_append]
      have hsing : (([((r.source, r.target), ⟨r.amount, 1, r.timestamp⟩)] : EdgeList).find?
          fun e => decide (e.1 = (u, v))) = none := by
        have hne : ¬((r.source, r.target) = (u, v)) := fun h => huv h.symm
        rw [List.find?_cons_of_neg _ (by simpa using hne)]
        rfl
      rw [hsing, Option.or_none]

/-- Witness for the amended C7 at a concrete edge dictionary: the second
transaction on `("A", "B")` bumps amount and count and keeps timestamp 1. -/
theorem C7_fold_amended_witness :
    edgeLookup [(("A", "B"), ⟨5, 1, some 1⟩)] "A" "B" = some ⟨5, 1, some 1⟩ ∧
      edgeLookup (addTxn [(("A", "B"), ⟨5, 1, some 1⟩)] ⟨"A", "B", 7, some 2⟩) "A" "B" =
        some ⟨12, 2, some 1⟩ :=
  ⟨by decide,
    (C7_fold_amended [(("A", "B"), ⟨5, 1, some 1⟩)] ⟨"A", "B", 7, some 2⟩).1
      ⟨5, 1, some 1⟩ (by decide)⟩

/-! ## Scorer flag lemmas (claims C4, C5) -/

/-- Membership in a conditional singleton list. -/
theorem mem_ite_singleton {α : Type} {c : Prop} [Decidable c] {x a : α} :
    (a ∈ if c then [x] else []) ↔ c ∧ a = x := by
  split <;> simp_all

/-- Nonnegativity of the seven per-detector risk contributions. -/
theorem riskC_nonneg (in_txs : List ℚ) :
    (0 : ℤ) ≤
      if fireC in_txs then 25 + min (5 * (((structuredOf in_txs).length : ℤ) - 3)) 20
      else 0 := by
  split
  · next h =>
    have h3 : 3 ≤ (structuredOf in_txs).length := by simpa [fireC] using h
    have hmin : (0 : ℤ) ≤ min (5 * (((structuredOf in_txs).length : ℤ) - 3)) 20 :=
      le_min (by omega) (by norm_num)
    omega
  · exact le_refl 0

/-- Claim C4, counterexample: a node with `pagerank = 1/10 > 0.04`, positive
in-degree and `out_vol ≤ 1.5·in_vol`.  Detector D adds `⌊400·(1/10)⌋ = 40`
risk points, but no flag at all is appended — contradicting the claim that
the flag accompanies every node with `pagerank > 0.04`. -/
theorem C4_kingpin_cex :
    (1 / 25 : ℚ) < 1 / 10 ∧
      (scoreNode 1000 1400 (1 / 10) 1 1 [1000] [] 1000).risk = 40 ∧
      (scoreNode 1000 1400 (1 / 10) 1 1 [1000] [] 1000).flags = [] :=
  ⟨by norm_num, by decide, by decide⟩

/-- Claim C4, amended: for a node with `pagerank > 0.04` detector D adds
`⌊400·pagerank⌋` to the risk score (visible through the cap at 100: the
final score is at least `min ⌊400·pagerank⌋ 100`), but it appends the flag
exactly when additionally `out_vol > 1.5·in_vol` or `in_deg = 0`; the type
becomes `source` under the same extra condition when it is still
`standard`. -/
theorem C4_kingpin_amended (ci co pr : ℚ) (ind outd : ℕ) (in_txs in_ts : List ℚ)
    (q95 : ℚ) (hpr : 1 / 25 < pr) :
    (Flag.highInfluenceSource pr ∈ (scoreNode ci co pr ind outd in_txs in_ts q95).flags ↔
      (ci * (3 / 2) < co ∨ ind = 0)) ∧
    min ⌊pr * 400⌋ 100 ≤ (scoreNode ci co pr ind outd in_txs in_ts q95).risk := by
  constructor
  · simp only [scoreNode, List.mem_append, mem_ite_singleton]
    simp [fireDsub, fireD, hpr]
    exact fun _ => by linarith [hpr]
  · have hD : (if fireD pr then ⌊pr * 400⌋ else (0 : ℤ)) = ⌊pr * 400⌋ :=
      if_pos (by simpa [fireD] using hpr)
    have hA : (0 : ℤ) ≤ if fireA ci co then 45 else 0 := by split <;> norm_num
    have hB : (0 : ℤ) ≤ if fireB ci co ind then 35 else 0 := by split <;> norm_num
    have hE : (0 : ℤ) ≤ if fireE ci co outd then 20 else 0 := by split <;> norm_num
    have hF : (0 : ℤ) ≤ if velocityAnomaly in_ts in_txs then 20 else 0 := by
      split <;> norm_num
    have hG : (0 : ℤ) ≤ if fireG ci co ind outd q95 then 25 else 0 := by
      split <;> norm_num
    have key : ⌊pr * 400⌋ ≤
        (if fireA ci co then (45 : ℤ) else 0) + (if fireB ci co ind then 35 else 0) +
        (if fireC in_txs then 25 + min (5 * (((structuredOf in_txs).length : ℤ) - 3)) 20
          else 0) +
        (if fireD pr then ⌊pr * 400⌋ else 0) + (if fireE ci co outd then 20 else 0) +
        (if velocityAnomaly in_ts in_txs then 20 else 0) +
        (if fireG ci co ind outd q95 then 25 else 0) := by
      rw [hD]
      linarith [hA, hB, riskC_nonneg in_txs, hE, hF, hG]
    exact min_le_min key (le_refl 100)

/-- Witness for the amended C4, at the counterexample's node features:
the flag-membership equivalence shows no flag, and the score is at least
`min 40 100 = 40`. -/
theorem C4_kingpin_amended_witness :
    (1 / 25 : ℚ) < 1 / 10 ∧
      ¬(Flag.highInfluenceSource (1 / 10) ∈
          (scoreNode 1000 1400 (1 / 10) 1 1 [1000] [] 1000).flags) ∧
      min ⌊(1 / 10 : ℚ) * 400⌋ 100 ≤
        (scoreNode 1000 1400 (1 / 10) 1 1 [1000] [] 1000).risk := by
  refine ⟨by norm_num, ?_, ?_⟩
  · rw [(C4_kingpin_amended 1000 1400 (1 / 10) 1 1 [1000] [] 1000 (by norm_num)).1]
    decide
  · exact (C4_kingpin_amended 1000 1400 (1 / 10) 1 1 [1000] [] 1000 (by norm_num)).2

/-- Claim C5, counterexample: five incoming timestamps spanning four minutes
(window `1/15` hours), so the claim's rate `count / hours = 75 > 20` holds
and the claim predicts the velocity flag; but the code computes
`count / max(window, 1) = 5` and appends nothing. -/
theorem C5_velocity_cex :
    (scoreNode 500 0 (1 / 100) 5 0 [100, 100, 100, 100, 100]
        [0, 1 / 60, 1 / 30, 1 / 20, 1 / 15] 100).flags = [] ∧
      5 ≤ ([0, 1 / 60, 1 / 30, 1 / 20, 1 / 15] : List ℚ).length ∧
      20 < (([0, 1 / 60, 1 / 30, 1 / 20, 1 / 15] : List ℚ).length : ℚ) /
        (listMax [0, 1 / 60, 1 / 30, 1 / 20, 1 / 15] -
          listMin [0, 1 / 60, 1 / 30, 1 / 20, 1 / 15]) :=
  ⟨by decide, by decide, by decide⟩

/-- Claim C5, amended: detector F adds +20 and appends the velocity flag
exactly when the node has at least 5 incoming folded-edge amounts, at least
2 valid incoming timestamps, and the timestamp count divided by
`max(window_hours, 1)` exceeds 20 (so a burst squeezed into less than an
hour needs more than 20 timestamps, not 5). -/
theorem C5_velocity_amended (ci co pr : ℚ) (ind outd : ℕ) (in_txs in_ts : List ℚ)
    (q95 : ℚ) :
    Flag.velocityBurst ∈ (scoreNode ci co pr ind outd in_txs in_ts q95).flags ↔
      (5 ≤ in_txs.length ∧ 2 ≤ in_ts.length ∧
        20 < (in_ts.length : ℚ) / max (listMax in_ts - listMin in_ts) 1) := by
  have hv : velocityAnomaly in_ts in_txs = true ↔
      (5 ≤ in_txs.length ∧ 2 ≤ in_ts.length ∧
        20 < (in_ts.length : ℚ) / max (listMax in_ts - listMin in_ts) 1) := by
    rw [velocityAnomaly]
    split
    · next h => simp; omega
    · next h =>
      split
      · next h2 => simp; omega
      · next h2 =>
        simp only [decide_eq_true_eq]
        constructor
        · intro h3
          exact ⟨by omega, by omega, h3⟩
        · intro h3
          exact h3.2.2
  rw [← hv]
  simp only [scoreNode, List.mem_append, mem_ite_singleton]
  simp

/-! ## Scorer invariants and attribute plumbing (claims C1, C2, C3) -/

/-- The scorer's risk score lies in `[0, 100]`: every detector contribution
is nonnegative and the sum is capped (logic.py line 233). -/
theorem scoreNode_risk_bounds (ci co pr : ℚ) (ind outd : ℕ) (in_txs in_ts : List ℚ)
    (q95 : ℚ) :
    0 ≤ (scoreNode ci co pr ind outd in_txs in_ts q95).risk ∧
      (scoreNode ci co pr ind outd in_txs in_ts q95).risk ≤ 100 := by
  have hA : (0 : ℤ) ≤ if fireA ci co then 45 else 0 := by split <;> norm_num
  have hB : (0 : ℤ) ≤ if fireB ci co ind then 35 else 0 := by split <;> norm_num
  have hD : (0 : ℤ) ≤ if fireD pr then ⌊pr * 400⌋ else 0 := by
    split
    · next h =>
      have hp : (1 : ℚ) / 25 < pr := by simpa [fireD] using h
      exact Int.floor_nonneg.mpr (by linarith)
    · exact le_refl 0
  have hE : (0 : ℤ) ≤ if fireE ci co outd then 20 else 0 := by split <;> norm_num
  have hF : (0 : ℤ) ≤ if velocityAnomaly in_ts in_txs then 20 else 0 := by
    split <;> norm_num
  have hG : (0 : ℤ) ≤ if fireG ci co ind outd q95 then 25 else 0 := by
    split <;> norm_num
  refine ⟨?_, ?_⟩ <;> simp only [scoreNode]
  · exact le_min (by linarith [riskC_nonneg in_txs]) (by norm_num)
  · exact min_le_right _ _

/-- The scorer derives `suspicious` from the capped score and the flags
(logic.py line 234). -/
theorem scoreNode_susp_iff (ci co pr : ℚ) (ind outd : ℕ) (in_txs in_ts : List ℚ)
    (q95 : ℚ) :
    (scoreNode ci co pr ind outd in_txs in_ts q95).suspicious = true ↔
      (10 < (scoreNode ci co pr ind outd in_txs in_ts q95).risk ∨
        (scoreNode ci co pr ind outd in_txs in_ts q95).flags ≠ []) := by
  simp only [scoreNode, Bool.or_eq_true, decide_eq_true_eq]

/-- The scorer never assigns the type `ring_member`; only the ring detector
does. -/
theorem scoreNode_type_ne_ring (ci co pr : ℚ) (ind outd : ℕ) (in_txs in_ts : List ℚ)
    (q95 : ℚ) :
    (scoreNode ci co pr ind outd in_txs in_ts q95).type ≠ NType.ring_member := by
  simp only [scoreNode]
  split_ifs <;> simp

/-- Structure of membership in an attribute update. -/
theorem mem_updAttr {m : List (String × NodeAttrs)} {n : String}
    {f : NodeAttrs → NodeAttrs} {q : String × NodeAttrs} (hq : q ∈ updAttr m n f) :
    ∃ r ∈ m, (r.1 = n ∧ q = (r.1, f r.2)) ∨ (¬r.1 = n ∧ q = r) := by
  rcases List.mem_map.1 hq with ⟨r, hr, hrq⟩
  refine ⟨r, hr, ?_⟩
  by_cases h : r.1 = n
  · exact Or.inl ⟨h, by rw [← hrq, if_pos h]⟩
  · exact Or.inr ⟨h, by rw [← hrq, if_neg h]⟩

/-- A pointwise property of attribute records survives one update. -/
theorem updAttr_forall {P : NodeAttrs → Prop} {m : List (String × NodeAttrs)}
    {n : String} {f : NodeAttrs → NodeAttrs}
    (hm : ∀ p ∈ m, P p.2) (hf : ∀ a, P a → P (f a)) :
    ∀ q ∈ updAttr m n f, P q.2 := by
  intro q hq
  rcases mem_updAttr hq with ⟨r, hr, ⟨_, rfl⟩ | ⟨_, rfl⟩⟩
  · exact hf _ (hm _ hr)
  · exact hm _ hr

/-- A pointwise property survives a fold of per-node updates. -/
theorem foldl_updAttr_forall {P : NodeAttrs → Prop} {f : NodeAttrs → NodeAttrs}
    (hf : ∀ a, P a → P (f a)) :
    ∀ (ns : List String) (m : List (String × NodeAttrs)), (∀ p ∈ m, P p.2) →
      ∀ q ∈ ns.foldl (fun a n => updAttr a n f) m, P q.2 := by
  intro ns
  induction ns with
  | nil => intro m hm; exact hm
  | cons x xs ih => intro m hm; exact ih _ (updAttr_forall hm hf)

/-- A pointwise property preserved by both per-member ring updates survives
the whole ring-detection pass. -/
theorem ringDetect_attrs_forall {P : NodeAttrs → Prop}
    (hc : ∀ rid a, P a → P (cycleNodeUpdate rid a))
    (hx : ∀ a, P a → P (complexNodeUpdate a))
    (es : EdgeList) (sccs : List (List String))
    (cyclesOf : List String → List (List String))
    (attrs0 : List (String × NodeAttrs)) (h0 : ∀ p ∈ attrs0, P p.2) :
    ∀ q ∈ (ringDetect es sccs cyclesOf attrs0).attrs, P q.2 := by
  have hcyc : ∀ (cycle : List String) (st : RingState), (∀ p ∈ st.attrs, P p.2) →
      ∀ q ∈ (applyCycle es st cycle).attrs, P q.2 := by
    intro cycle st hst
    rw [applyCycle]
    split
    · exact foldl_updAttr_forall (hc _) cycle st.attrs hst
    · exact hst
  have hfoldcyc : ∀ (cs : List (List String)) (st : RingState),
      (∀ p ∈ st.attrs, P p.2) → ∀ q ∈ (cs.foldl (applyCycle es) st).attrs, P q.2 := by
    intro cs
    induction cs with
    | nil => intro st hst; exact hst
    | cons c cs ih => intro st hst; exact ih _ (hcyc c st hst)
  have hstep : ∀ (scc : List String) (st : RingState), (∀ p ∈ st.attrs, P p.2) →
      ∀ q ∈ (ringStep es cyclesOf st scc).attrs, P q.2 := by
    intro scc st hst
    rw [ringStep]
    split
    · exact hfoldcyc _ st hst
    · exact foldl_updAttr_forall hx scc st.attrs hst
  have hfold : ∀ (ls : List (List String)) (st : RingState),
      (∀ p ∈ st.attrs, P p.2) →
      ∀ q ∈ (ls.foldl (ringStep es cyclesOf) st).attrs, P q.2 := by
    intro ls
    induction ls with
    | nil => intro st hst; exact hst
    | cons s ls ih => intro st hst; exact ih _ (hstep s st hst)
  exact hfold _ _ h0

/-- A pointwise property preserved by `rings` replacement survives the final
`rings` assignment. -/
theorem applyRings_attrs_forall {P : NodeAttrs → Prop}
    (hr : ∀ (a : NodeAttrs) (rs : List RingId), P a → P { a with rings := rs })
    (st : RingState) (h : ∀ p ∈ st.attrs, P p.2) :
    ∀ q ∈ applyRings st, P q.2 := by
  suffices h2 : ∀ (l : List (String × List RingId)) (m : List (String × NodeAttrs)),
      (∀ p ∈ m, P p.2) →
      ∀ q ∈ l.foldl (fun a p => updAttr a p.1 fun x => { x with rings := p.2 }) m,
        P q.2 by
    exact h2 st.nodeRings st.attrs h
  intro l
  induction l with
  | nil => intro m hm; exact hm
  | cons x xs ih => intro m hm; exact ih _ (updAttr_forall hm fun a => hr a x.2)

/-- Pointwise transfer of a scorer fact to the scored dictionary. -/
theorem scoreAll_forall {P : NodeAttrs → Prop} (es : EdgeList) (nodes : List String)
    (pagerank : String → ℚ) (community : String → ℕ) (q95 : ℚ)
    (h : ∀ n : String, P
      { risk_score := (scoreNode (inVolume es n) (outVolume es n) (pagerank n)
          (inDeg es n) (outDeg es n) (inTxAmounts es n) (inTimestamps es n) q95).risk
        type := (scoreNode (inVolume es n) (outVolume es n) (pagerank n)
          (inDeg es n) (outDeg es n) (inTxAmounts es n) (inTimestamps es n) q95).type
        suspicious := (scoreNode (inVolume es n) (outVolume es n) (pagerank n)
          (inDeg es n) (outDeg es n) (inTxAmounts es n) (inTimestamps es n) q95).suspicious
        community := community n
        pagerank := roundTo 5 (pagerank n)
        rings := []
        flags := (scoreNode (inVolume es n) (outVolume es n) (pagerank n)
          (inDeg es n) (outDeg es n) (inTxAmounts es n) (inTimestamps es n) q95).flags
        in_volume := roundTo 2 (inVolume es n)
        out_volume := roundTo 2 (outVolume es n)
        in_degree := inDeg es n
        out_degree := outDeg es n }) :
    ∀ p ∈ scoreAll es nodes pagerank community q95, P p.2 := by
  intro p hp
  rw [scoreAll] at hp
  rcases List.mem_map.1 hp with ⟨n, _, rfl⟩
  exact h n

/-- Membership of a node element in the serialised element list comes from a
node-attribute entry. -/
theorem mem_elements_node {es : EdgeList} {attrs : List (String × NodeAttrs)}
    {d : NodeElem} (h : Element.node d ∈ elementsOf es attrs) :
    ∃ p ∈ attrs, d = ⟨p.1, roundTo 1 (p.2.risk_score : ℚ), p.2.type, p.2.suspicious,
      p.2.community, roundTo 5 p.2.pagerank, p.2.rings, p.2.flags, p.2.in_volume,
      p.2.out_volume⟩ := by
  rw [elementsOf] at h
  rcases List.mem_append.1 h with h | h
  · rcases List.mem_map.1 h with ⟨p, hp, hpe⟩
    refine ⟨p, hp, ?_⟩
    injection hpe with h'
    exact h'.symm
  · rcases List.mem_map.1 h with ⟨e, _, hee⟩
    exact Element.noConfusion hee

/-- The element list of a non-empty analysis is the serialisation of the
final attribute dictionary. -/
theorem analyze_elements (rows : List Row) (pagerank : String → ℚ)
    (community : String → ℕ) (sccs : List (List String))
    (cyclesOf : List String → List (List String)) (h : clean rows ≠ []) :
    (analyze rows pagerank community sccs cyclesOf).elements =
      elementsOf (buildEdges (clean rows))
        (finalAttrs rows pagerank community sccs cyclesOf) := by
  unfold analyze
  rw [if_neg h]
  rfl

/-- The element list of an empty analysis is empty. -/
theorem analyze_elements_empty (rows : List Row) (pagerank : String → ℚ)
    (community : String → ℕ) (sccs : List (List String))
    (cyclesOf : List String → List (List String)) (h : clean rows = []) :
    (analyze rows pagerank community sccs cyclesOf).elements = [] := by
  unfold analyze
  rw [if_pos h]

/-- Rounding an integer-valued rational to decimal places is the identity. -/
theorem roundTo_intCast (k : ℕ) (z : ℤ) : roundTo k ((z : ℤ) : ℚ) = (z : ℚ) := by
  rw [roundTo]
  have h10 : ((z : ℚ) * 10 ^ k) = ((z * 10 ^ k : ℤ) : ℚ) := by push_cast; ring
  rw [h10, round_intCast]
  push_cast
  rw [mul_div_assoc, div_self (by positivity), mul_one]

/-- Risk bounds hold for every entry of the final attribute dictionary. -/
theorem finalAttrs_risk_bounds (rows : List Row) (pagerank : String → ℚ)
    (community : String → ℕ) (sccs : List (List String))
    (cyclesOf : List String → List (List String)) :
    ∀ p ∈ finalAttrs rows pagerank community sccs cyclesOf,
      0 ≤ p.2.risk_score ∧ p.2.risk_score ≤ 100 := by
  have h0 := scoreAll_forall (P := fun a => 0 ≤ a.risk_score ∧ a.risk_score ≤ 100)
    (buildEdges (clean rows)) (buildNodes (clean rows)) pagerank community
    (quantile95 ((clean rows).map (·.amount)))
    (fun n => scoreNode_risk_bounds _ _ _ _ _ _ _ _)
  have h1 := ringDetect_attrs_forall
    (P := fun a => 0 ≤ a.risk_score ∧ a.risk_score ≤ 100)
    (fun rid a ha => by simp only [cycleNodeUpdate]; omega)
    (fun a ha => by simp only [complexNodeUpdate]; omega)
    (buildEdges (clean rows)) sccs cyclesOf _ h0
  exact applyRings_attrs_forall
    (P := fun a => 0 ≤ a.risk_score ∧ a.risk_score ≤ 100) (fun a rs ha => ha) _ h1

/-- The suspicious-iff-score-or-flags biconditional holds for every entry of
the final attribute dictionary: the scorer establishes it and both ring
updates force `suspicious` while appending a flag. -/
theorem finalAttrs_susp_iff (rows : List Row) (pagerank : String → ℚ)
    (community : String → ℕ) (sccs : List (List String))
    (cyclesOf : List String → List (List String)) :
    ∀ p ∈ finalAttrs rows pagerank community sccs cyclesOf,
      (p.2.suspicious = true ↔ (10 < p.2.risk_score ∨ p.2.flags ≠ [])) := by
  have h0 := scoreAll_forall
    (P := fun a => a.suspicious = true ↔ (10 < a.risk_score ∨ a.flags ≠ []))
    (buildEdges (clean rows)) (buildNodes (clean rows)) pagerank community
    (quantile95 ((clean rows).map (·.amount)))
    (fun n => scoreNode_susp_iff _ _ _ _ _ _ _ _)
  have h1 := ringDetect_attrs_forall
    (P := fun a => a.suspicious = true ↔ (10 < a.risk_score ∨ a.flags ≠ []))
    (fun rid a ha => by simp [cycleNodeUpdate])
    (fun a ha => by simp [complexNodeUpdate])
    (buildEdges (clean rows)) sccs cyclesOf _ h0
  exact applyRings_attrs_forall
    (P := fun a => a.suspicious = true ↔ (10 < a.risk_score ∨ a.flags ≠ []))
    (fun a rs ha => ha) _ h1

/-- Claim C3: for every node in the result, the final risk score lies between
0 and 100 inclusive, after all seven detectors (including detector D's
unbounded PageRank contribution), the +50 per simple-cycle membership, and
the forced 100 for complex-network membership. -/
theorem C3_risk_in_range (rows : List Row) (pagerank : String → ℚ)
    (community : String → ℕ) (sccs : List (List String))
    (cyclesOf : List String → List (List String)) (d : NodeElem)
    (h : Element.node d ∈ (analyze rows pagerank community sccs cyclesOf).elements) :
    0 ≤ d.risk_score ∧ d.risk_score ≤ 100 := by
  by_cases hdf : clean rows = []
  · rw [analyze_elements_empty rows pagerank community sccs cyclesOf hdf] at h
    cases h
  · rw [analyze_elements rows pagerank community sccs cyclesOf hdf] at h
    rcases mem_elements_node h with ⟨p, hp, rfl⟩
    have hb := finalAttrs_risk_bounds rows pagerank community sccs cyclesOf p hp
    constructor
    · show (0 : ℚ) ≤ roundTo 1 (p.2.risk_score : ℚ)
      rw [roundTo_intCast]
      exact_mod_cast hb.1
    · show roundTo 1 (p.2.risk_score : ℚ) ≤ 100
      rw [roundTo_intCast]
      exact_mod_cast hb.2

/-- Witness for C3 at the concrete cycle batch `rows3`, node `C`: its final
risk score is 100, inside the range. -/
theorem C3_risk_in_range_witness :
    Element.node elemC ∈ (analyze rows3 pr3 comm3 sccs3 cyc3).elements ∧
      0 ≤ elemC.risk_score ∧ elemC.risk_score ≤ 100 :=
  ⟨by decide, C3_risk_in_range rows3 pr3 comm3 sccs3 cyc3 elemC (by decide)⟩

/-- Claim C1: for every node in the result of a non-empty cleaned input, the
node's final `suspicious` field is true if and only if its final risk score
exceeds 10 or its flags list is non-empty; the biconditional holds after the
ring-detector updates that run after the scorer computed `suspicious`. -/
theorem C1_suspicious_iff (rows : List Row) (pagerank : String → ℚ)
    (community : String → ℕ) (sccs : List (List String))
    (cyclesOf : List String → List (List String)) (d : NodeElem)
    (h : Element.node d ∈ (analyze rows pagerank community sccs cyclesOf).elements) :
    d.suspicious = true ↔ (10 < d.risk_score ∨ d.flags ≠ []) := by
  by_cases hdf : clean rows = []
  · rw [analyze_elements_empty rows pagerank community sccs cyclesOf hdf] at h
    cases h
  · rw [analyze_elements rows pagerank community sccs cyclesOf hdf] at h
    rcases mem_elements_node h with ⟨p, hp, rfl⟩
    have hs := finalAttrs_susp_iff rows pagerank community sccs cyclesOf p hp
    show p.2.suspicious = true ↔ (10 < roundTo 1 (p.2.risk_score : ℚ) ∨ p.2.flags ≠ [])
    rw [roundTo_intCast, hs]
    constructor
    · rintro (h10 | hf)
      · exact Or.inl (by exact_mod_cast h10)
      · exact Or.inr hf
    · rintro (h10 | hf)
      · exact Or.inl (by exact_mod_cast h10)
      · exact Or.inr hf

/-- Witness for C1 at the concrete cycle batch `rows3`, node `C`: suspicious
with risk 100 and two flags. -/
theorem C1_suspicious_iff_witness :
    Element.node elemC ∈ (analyze rows3 pr3 comm3 sccs3 cyc3).elements ∧
      (elemC.suspicious = true ↔ (10 < elemC.risk_score ∨ elemC.flags ≠ [])) :=
  ⟨by decide, C1_suspicious_iff rows3 pr3 comm3 sccs3 cyc3 elemC (by decide)⟩

/-! ## Ring-membership bookkeeping (claim C2) -/

/-- Head lookup in the membership map, matching key. -/
theorem ringsOf_cons_pos {a : String × List RingId} {m : List (String × List RingId)}
    {n : String} (h : a.1 = n) : ringsOf (a :: m) n = a.2 := by
  rw [ringsOf, List.find?_cons_of_pos _ (by simpa using h)]
  rfl

/-- Head lookup in the membership map, mismatching key. -/
theorem ringsOf_cons_neg {a : String × List RingId} {m : List (String × List RingId)}
    {n : String} (h : ¬a.1 = n) : ringsOf (a :: m) n = ringsOf m n := by
  rw [ringsOf, List.find?_cons_of_neg _ (by simpa using h)]
  rfl

/-- In-place append on the membership map leaves the entry of the touched key
non-empty, provided the key is present. -/
theorem ringsOf_map_push_self (n : String) (rid : RingId) :
    ∀ m : List (String × List RingId), (∃ p ∈ m, p.1 = n) →
      ringsOf (m.map fun p => if p.1 = n then (p.1, p.2 ++ [rid]) else p) n ≠ [] := by
  intro m
  induction m with
  | nil => rintro ⟨p, hp, _⟩; cases hp
  | cons a m ih =>
    intro hex
    rw [List.map_cons]
    by_cases h : a.1 = n
    · rw [if_pos h, ringsOf_cons_pos (show (a.1, a.2 ++ [rid]).1 = n from h)]
      simp
    · rw [if_neg h, ringsOf_cons_neg h]
      apply ih
      rcases hex with ⟨p, hp, hpn⟩
      rcases List.mem_cons.1 hp with rfl | hp2
      · exact absurd hpn h
      · exact ⟨p, hp2, hpn⟩

/-- In-place append on the membership map leaves other keys untouched. -/
theorem ringsOf_map_push_ne (n : String) (rid : RingId) {n' : String} (hne : n' ≠ n) :
    ∀ m : List (String × List RingId),
      ringsOf (m.map fun p => if p.1 = n then (p.1, p.2 ++ [rid]) else p) n' =
        ringsOf m n' := by
  intro m
  induction m with
  | nil => rfl
  | cons a m ih =>
    rw [List.map_cons]
    by_cases h : a.1 = n
    · have h' : ¬a.1 = n' := fun hh => hne (by rw [← hh, h])
      rw [if_pos h, ringsOf_cons_neg (show ¬(a.1, a.2 ++ [rid]).1 = n' from h'),
        ringsOf_cons_neg h', ih]
    · by_cases h' : a.1 = n'
      · rw [if_neg h, ringsOf_cons_pos h', ringsOf_cons_pos h']
      · rw [if_neg h, ringsOf_cons_neg h', ringsOf_cons_neg h', ih]

/-- After `node_rings[n].append(rid)`, node `n` has a non-empty ring list. -/
theorem pushRing_self (m : List (String × List RingId)) (n : String) (rid : RingId) :
    ringsOf (pushRing m n rid) n ≠ [] := by
  rw [pushRing]
  split
  · next hany =>
    exact ringsOf_map_push_self n rid m (by simpa using List.any_eq_true.1 hany)
  · next hany =>
    have hnone : (m.find? fun p => decide (p.1 = n)) = none := by
      rw [List.find?_eq_none]
      intro p hp
      simp only [decide_eq_true_eq]
      intro hpn
      exact hany (List.any_eq_true.2 ⟨p, hp, by simp [hpn]⟩)
    rw [ringsOf, List.find?_append, hnone]
    rw [List.find?_cons_of_pos _ (by simp)]
    simp

/-- `node_rings[n].append(rid)` leaves other keys untouched. -/
theorem ringsOf_pushRing_ne {n' n : String} (hne : n' ≠ n)
    (m : List (String × List RingId)) (rid : RingId) :
    ringsOf (pushRing m n rid) n' = ringsOf m n' := by
  rw [pushRing]
  split
  · exact ringsOf_map_push_ne n rid hne m
  · have hone : (([(n, [rid])] : List (String × List RingId)).find?
        fun p => decide (p.1 = n')) = none := by
      have hne2 : ¬((n, [rid]) : String × List RingId).1 = n' := fun hh => hne hh.symm
      rw [List.find?_cons_of_neg _ (by simpa using hne2)]
      rfl
    rw [ringsOf, ringsOf, List.find?_append, hone, Option.or_none]

/-- `node_rings` appends never empty an existing non-empty entry. -/
theorem pushRing_mono {m : List (String × List RingId)} {n' : String}
    (h : ringsOf m n' ≠ []) (n : String) (rid : RingId) :
    ringsOf (pushRing m n rid) n' ≠ [] := by
  by_cases hn : n' = n
  · subst hn
    exact pushRing_self m n' rid
  · rw [ringsOf_pushRing_ne hn m rid]
    exact h

/-- Every entry list in the membership map stays non-empty under a push. -/
theorem pushRing_entries {m : List (String × List RingId)}
    (h : ∀ e ∈ m, e.2 ≠ []) (n : String) (rid : RingId) :
    ∀ e ∈ pushRing m n rid, e.2 ≠ [] := by
  intro e he
  rw [pushRing] at he
  split at he
  · rcases List.mem_map.1 he with ⟨p, hp, rfl⟩
    by_cases hh : p.1 = n
    · simp [hh]
    · simpa [hh] using h p hp
  · rcases List.mem_append.1 he with he | he
    · exact h e he
    · rcases List.mem_singleton.1 he with rfl
      simp

/-- Folding pushes over a member list makes every member's entry non-empty
and preserves non-emptiness elsewhere. -/
theorem foldl_pushRing_self (rid : RingId) :
    ∀ (cycle : List String) (m : List (String × List RingId)) (n : String),
      (n ∈ cycle ∨ ringsOf m n ≠ []) →
      ringsOf (cycle.foldl (fun mm x => pushRing mm x rid) m) n ≠ [] := by
  intro cycle
  induction cycle with
  | nil =>
    intro m n h
    rcases h with h | h
    · cases h
    · exact h
  | cons x xs ih =>
    intro m n h
    apply ih
    rcases h with h | h
    · rcases List.mem_cons.1 h with rfl | h2
      · exact Or.inr (pushRing_self m n rid)
      · exact Or.inl h2
    · exact Or.inr (pushRing_mono h x rid)

/-- Folding pushes preserves non-emptiness of all entry lists. -/
theorem foldl_pushRing_entries (rid : RingId) :
    ∀ (cycle : List String) (m : List (String × List RingId)),
      (∀ e ∈ m, e.2 ≠ []) →
      ∀ e ∈ cycle.foldl (fun mm x => pushRing mm x rid) m, e.2 ≠ [] := by
  intro cycle
  induction cycle with
  | nil => intro m h; exact h
  | cons x xs ih => intro m h; exact ih _ (pushRing_entries h x rid)

/-- An entry of a fold of per-node updates is an original entry or has its
key among the updated nodes. -/
theorem mem_foldl_updAttr_key {f : NodeAttrs → NodeAttrs} :
    ∀ (ns : List String) (m : List (String × NodeAttrs)) (q : String × NodeAttrs),
      q ∈ ns.foldl (fun a n => updAttr a n f) m → q ∈ m ∨ q.1 ∈ ns := by
  intro ns
  induction ns with
  | nil => intro m q hq; exact Or.inl hq
  | cons x xs ih =>
    intro m q hq
    rcases ih _ q hq with h | h
    · rcases mem_updAttr h with ⟨r, hr, ⟨hk, rfl⟩ | ⟨_, rfl⟩⟩
      · exact Or.inr (by simp [hk])
      · exact Or.inl hr
    · exact Or.inr (List.mem_cons_of_mem _ h)

/-- A non-empty lookup comes from a real entry of the membership map. -/
theorem ringsOf_ne_nil_mem {m : List (String × List RingId)} {n : String}
    (h : ringsOf m n ≠ []) : ∃ rs, (n, rs) ∈ m := by
  rw [ringsOf] at h
  rcases hf : m.find? fun p => decide (p.1 = n) with _ | e
  · rw [hf] at h
    simp at h
  · have he := List.mem_of_find?_eq_some hf
    have hp : e.1 = n := by simpa using List.find?_some hf
    exact ⟨e.2, by rw [← hp]; exact he⟩

/-- Joint invariant through ring detection: a `ring_member` type implies a
non-empty `node_rings` entry, and all recorded entry lists are non-empty. -/
theorem ringDetect_inv (es : EdgeList) (sccs : List (List String))
    (cyclesOf : List String → List (List String))
    (attrs0 : List (String × NodeAttrs))
    (h0 : ∀ p ∈ attrs0, p.2.type ≠ NType.ring_member) :
    (∀ p ∈ (ringDetect es sccs cyclesOf attrs0).attrs,
        p.2.type = NType.ring_member →
          ringsOf (ringDetect es sccs cyclesOf attrs0).nodeRings p.1 ≠ []) ∧
      ∀ e ∈ (ringDetect es sccs cyclesOf attrs0).nodeRings, e.2 ≠ [] := by
  have hcyc : ∀ (cycle : List String) (st : RingState),
      ((∀ p ∈ st.attrs, p.2.type = NType.ring_member → ringsOf st.nodeRings p.1 ≠ []) ∧
        ∀ e ∈ st.nodeRings, e.2 ≠ []) →
      ((∀ p ∈ (applyCycle es st cycle).attrs, p.2.type = NType.ring_member →
          ringsOf (applyCycle es st cycle).nodeRings p.1 ≠ []) ∧
        ∀ e ∈ (applyCycle es st cycle).nodeRings, e.2 ≠ []) := by
    intro cycle st ⟨ha, hn⟩
    rw [applyCycle]
    split
    · refine ⟨?_, foldl_pushRing_entries _ cycle st.nodeRings hn⟩
      intro p hp htype
      rcases mem_foldl_updAttr_key cycle st.attrs p hp with hin | hkey
      · exact foldl_pushRing_self _ cycle st.nodeRings p.1 (Or.inr (ha p hin htype))
      · exact foldl_pushRing_self _ cycle st.nodeRings p.1 (Or.inl hkey)
    · exact ⟨ha, hn⟩
  have hcomp : ∀ (scc : List String) (st : RingState),
      ((∀ p ∈ st.attrs, p.2.type = NType.ring_member → ringsOf st.nodeRings p.1 ≠ []) ∧
        ∀ e ∈ st.nodeRings, e.2 ≠ []) →
      ((∀ p ∈ (applyComplex es st scc).attrs, p.2.type = NType.ring_member →
          ringsOf (applyComplex es st scc).nodeRings p.1 ≠ []) ∧
        ∀ e ∈ (applyComplex es st scc).nodeRings, e.2 ≠ []) := by
    intro scc st ⟨ha, hn⟩
    refine ⟨?_, foldl_pushRing_entries _ scc st.nodeRings hn⟩
    intro p hp htype
    rcases mem_foldl_updAttr_key scc st.attrs p hp with hin | hkey
    · exact foldl_pushRing_self _ scc st.nodeRings p.1 (Or.inr (ha p hin htype))
    · exact foldl_pushRing_self _ scc st.nodeRings p.1 (Or.inl hkey)
  have hfoldcyc : ∀ (cs : List (List String)) (st : RingState),
      ((∀ p ∈ st.attrs, p.2.type = NType.ring_member → ringsOf st.nodeRings p.1 ≠ []) ∧
        ∀ e ∈ st.nodeRings, e.2 ≠ []) →
      ((∀ p ∈ (cs.foldl (applyCycle es) st).attrs, p.2.type = NType.ring_member →
          ringsOf (cs.foldl (applyCycle es) st).nodeRings p.1 ≠ []) ∧
        ∀ e ∈ (cs.foldl (applyCycle es) st).nodeRings, e.2 ≠ []) := by
    intro cs
    induction cs with
    | nil => intro st hst; exact hst
    | cons c cs ih => intro st hst; exact ih _ (hcyc c st hst)
  have hstep : ∀ (scc : List String) (st : RingState),
      ((∀ p ∈ st.attrs, p.2.type = NType.ring_member → ringsOf st.nodeRings p.1 ≠ []) ∧
        ∀ e ∈ st.nodeRings, e.2 ≠ []) →
      ((∀ p ∈ (ringStep es cyclesOf st scc).attrs, p.2.type = NType.ring_member →
          ringsOf (ringStep es cyclesOf st scc).nodeRings p.1 ≠ []) ∧
        ∀ e ∈ (ringStep es cyclesOf st scc).nodeRings, e.2 ≠ []) := by
    intro scc st hst
    rw [ringStep]
    split
    · exact hfoldcyc _ st hst
    · exact hcomp scc st hst
  have hfold : ∀ (ls : List (List String)) (st : RingState),
      ((∀ p ∈ st.attrs, p.2.type = NType.ring_member → ringsOf st.nodeRings p.1 ≠ []) ∧
        ∀ e ∈ st.nodeRings, e.2 ≠ []) →
      ((∀ p ∈ (ls.foldl (ringStep es cyclesOf) st).attrs,
          p.2.type = NType.ring_member →
            ringsOf (ls.foldl (ringStep es cyclesOf) st).nodeRings p.1 ≠ []) ∧
        ∀ e ∈ (ls.foldl (ringStep es cyclesOf) st).nodeRings, e.2 ≠ []) := by
    intro ls
    induction ls with
    | nil => intro st hst; exact hst
    | cons s ls ih => intro st hst; exact ih _ (hstep s st hst)
  exact hfold _ ⟨0, [], [], attrs0⟩
    ⟨fun p hp htype => absurd htype (h0 p hp), fun e he => absurd he (List.not_mem_nil e)⟩

/-- After the final `rings` assignment, a `ring_member` node carries a
non-empty `rings` list. -/
theorem applyRings_type_rings (st : RingState)
    (h1 : ∀ p ∈ st.attrs, p.2.type = NType.ring_member → ringsOf st.nodeRings p.1 ≠ [])
    (h2 : ∀ e ∈ st.nodeRings, e.2 ≠ []) :
    ∀ q ∈ applyRings st, q.2.type = NType.ring_member → q.2.rings ≠ [] := by
  have key : ∀ (l : List (String × List RingId)) (m : List (String × NodeAttrs)),
      (∀ e ∈ l, e.2 ≠ []) →
      (∀ p ∈ m, p.2.type = NType.ring_member → p.2.rings ≠ [] ∨ ∃ rs, (p.1, rs) ∈ l) →
      ∀ q ∈ l.foldl (fun a p => updAttr a p.1 fun x => { x with rings := p.2 }) m,
        q.2.type = NType.ring_member → q.2.rings ≠ [] := by
    intro l
    induction l with
    | nil =>
      intro m _ hm q hq ht
      rcases hm q hq ht with h | ⟨rs, hrs⟩
      · exact h
      · exact absurd hrs (List.not_mem_nil _)
    | cons x xs ih =>
      intro m hl hm q hq ht
      refine ih _ (fun e he => hl e (List.mem_cons_of_mem _ he)) ?_ q hq ht
      intro p hp htp
      rcases mem_updAttr hp with ⟨r, hr, ⟨_, rfl⟩ | ⟨hk, rfl⟩⟩
      · exact Or.inl (by simpa using hl x (List.mem_cons_self _ _))
      · rcases hm _ hr htp with h | ⟨rs, hrs⟩
        · exact Or.inl h
        · rcases List.mem_cons.1 hrs with heq | hin
          · exact absurd (congrArg Prod.fst heq) hk
          · exact Or.inr ⟨rs, hin⟩
  exact key st.nodeRings st.attrs h2
    (fun p hp ht => Or.inr (ringsOf_ne_nil_mem (h1 p hp ht)))

/-- A `ring_member` entry of the final attribute dictionary has non-empty
rings. -/
theorem finalAttrs_type_rings (rows : List Row) (pagerank : String → ℚ)
    (community : String → ℕ) (sccs : List (List String))
    (cyclesOf : List String → List (List String)) :
    ∀ p ∈ finalAttrs rows pagerank community sccs cyclesOf,
      p.2.type = NType.ring_member → p.2.rings ≠ [] := by
  have h0 : ∀ p ∈ scoreAll (buildEdges (clean rows)) (buildNodes (clean rows)) pagerank
      community (quantile95 ((clean rows).map (·.amount))),
      p.2.type ≠ NType.ring_member :=
    scoreAll_forall (P := fun a => a.type ≠ NType.ring_member) _ _ _ _ _
      (fun n => scoreNode_type_ne_ring (inVolume (buildEdges (clean rows)) n)
        (outVolume (buildEdges (clean rows)) n) (pagerank n)
        (inDeg (buildEdges (clean rows)) n) (outDeg (buildEdges (clean rows)) n)
        (inTxAmounts (buildEdges (clean rows)) n)
        (inTimestamps (buildEdges (clean rows)) n)
        (quantile95 ((clean rows).map (·.amount))))
  have h := ringDetect_inv (buildEdges (clean rows)) sccs cyclesOf _ h0
  exact applyRings_type_rings _ h.1 h.2

/-- Claim C2, counterexample: in the `rows3` cycle every node fires the mule
detector before the ring detector runs, so node `C` ends with a non-empty
`rings` list but type `mule` — the claimed biconditional
(`type = ring_member` iff `rings ≠ ∅`) fails, and ring membership does not
override the earlier `mule` assignment for simple cycles. -/
theorem C2_ring_member_cex :
    Element.node elemC ∈ (analyze rows3 pr3 comm3 sccs3 cyc3).elements ∧
      elemC.rings ≠ [] ∧ elemC.type ≠ NType.ring_member :=
  ⟨by decide, by decide, by decide⟩

/-- Claim C2, amended: for every node in the result, `type = ring_member`
implies `rings ≠ ∅`.  Membership in a complex network forces
`type = ring_member`, but membership in a simple cycle sets it only when the
type is still `standard`, so earlier detector types (mule, aggregator,
source) persist and the converse direction fails. -/
theorem C2_ring_member_amended (rows : List Row) (pagerank : String → ℚ)
    (community : String → ℕ) (sccs : List (List String))
    (cyclesOf : List String → List (List String)) (d : NodeElem)
    (h : Element.node d ∈ (analyze rows pagerank community sccs cyclesOf).elements)
    (ht : d.type = NType.ring_member) :
    d.rings ≠ [] := by
  by_cases hdf : clean rows = []
  · rw [analyze_elements_empty rows pagerank community sccs cyclesOf hdf] at h
    cases h
  · rw [analyze_elements rows pagerank community sccs cyclesOf hdf] at h
    rcases mem_elements_node h with ⟨p, hp, rfl⟩
    exact finalAttrs_type_rings rows pagerank community sccs cyclesOf p hp ht

/-- Witness for the amended C2 at the small cycle `rowsStd`: node `F` stays
`standard` in the scorer, is retyped `ring_member` by the ring detector, and
indeed carries the ring `RING_001`. -/
theorem C2_ring_member_amended_witness :
    Element.node elemF ∈ (analyze rowsStd pr3 comm3 sccsStd cycStd).elements ∧
      elemF.type = NType.ring_member ∧ elemF.rings ≠ [] :=
  ⟨by decide, by decide,
    C2_ring_member_amended rowsStd pr3 comm3 sccsStd cycStd elemF (by decide) (by decide)⟩

/-! ## Flagged-account ordering (claim C8) -/

/-- The stable descending sort on risk scores produces a list sorted by
risk score descending. -/
theorem flaggedSort_sorted (l : List Account) :
    List.Sorted (fun x y : Account => y.risk_score ≤ x.risk_score) (flaggedSort l) := by
  haveI ht : IsTotal Account (fun x y => y.risk_score ≤ x.risk_score) :=
    ⟨fun a b => le_total b.risk_score a.risk_score⟩
  haveI htr : IsTrans Account (fun x y => y.risk_score ≤ x.risk_score) :=
    ⟨fun a b c hab hbc => le_trans hbc hab⟩
  exact List.sorted_insertionSort _ l

/-- Inserting an account with risk `c` into a list puts it in front of the
other accounts of risk `c` (the skipped prefix has strictly larger risk). -/
theorem filter_orderedInsert_pos (a : Account) (c : ℚ) (hc : a.risk_score = c) :
    ∀ l : List Account,
      (List.orderedInsert (fun x y => y.risk_score ≤ x.risk_score) a l).filter
          (fun x => decide (x.risk_score = c)) =
        a :: l.filter fun x => decide (x.risk_score = c) := by
  intro l
  induction l with
  | nil => simp [hc]
  | cons b l ih =>
    rw [List.orderedInsert]
    split
    · rw [List.filter_cons_of_pos (by simp [hc])]
    · next hr =>
      have hb : ¬b.risk_score = c := by
        intro hbc
        exact hr (le_of_eq (by rw [hbc, hc]))
      rw [List.filter_cons_of_neg (by simp [hb]), List.filter_cons_of_neg (by simp [hb]),
        ih]

/-- Inserting an account with risk different from `c` does not disturb the
accounts of risk `c`. -/
theorem filter_orderedInsert_neg (a : Account) (c : ℚ) (hc : ¬a.risk_score = c) :
    ∀ l : List Account,
      (List.orderedInsert (fun x y => y.risk_score ≤ x.risk_score) a l).filter
          (fun x => decide (x.risk_score = c)) =
        l.filter fun x => decide (x.risk_score = c) := by
  intro l
  induction l with
  | nil => simp [hc]
  | cons b l ih =>
    rw [List.orderedInsert]
    split
    · rw [List.filter_cons_of_neg (by simp [hc])]
    · by_cases hb : b.risk_score = c
      · rw [List.filter_cons_of_pos (by simp [hb]), List.filter_cons_of_pos (by simp [hb]),
          ih]
      · rw [List.filter_cons_of_neg (by simp [hb]), List.filter_cons_of_neg (by simp [hb]),
          ih]

/-- Stability of the sort: restricted to one fixed risk value, the sorted
flagged list is the unsorted list — equal-risk accounts keep their relative
(node-insertion) order. -/
theorem filter_flaggedSort (c : ℚ) :
    ∀ l : List Account,
      (flaggedSort l).filter (fun x => decide (x.risk_score = c)) =
        l.filter fun x => decide (x.risk_score = c) := by
  intro l
  induction l with
  | nil => rfl
  | cons a l ih =>
    rw [flaggedSort, List.insertionSort]
    rw [show List.insertionSort (fun x y : Account => y.risk_score ≤ x.risk_score) l =
      flaggedSort l from rfl]
    by_cases hc : a.risk_score = c
    · rw [filter_orderedInsert_pos a c hc, ih, List.filter_cons_of_pos (by simp [hc])]
    · rw [filter_orderedInsert_neg a c hc, ih, List.filter_cons_of_neg (by simp [hc])]

/-- Claim C8, counterexample: in the `rows3` cycle all three accounts tie at
risk 100 and are emitted in node-insertion order `C, B, A`; the tie is not
broken by ascending identifier, so the claimed ordering predicate fails. -/
theorem C8_sorted_cex :
    ((analyze rows3 pr3 comm3 sccs3 cyc3).flagged_accounts.map Account.id =
        ["C", "B", "A"]) ∧
      ((analyze rows3 pr3 comm3 sccs3 cyc3).flagged_accounts.map Account.risk_score =
        [100, 100, 100]) ∧
      ¬(analyze rows3 pr3 comm3 sccs3 cyc3).flagged_accounts.Pairwise
          (fun x y => x.risk_score > y.risk_score ∨
            (x.risk_score = y.risk_score ∧ x.id < y.id)) := by
  refine ⟨by decide, by decide, fun hp => ?_⟩
  have hl : (analyze rows3 pr3 comm3 sccs3 cyc3).flagged_accounts =
      [accOf "C", accOf "B", accOf "A"] := by decide
  rw [hl] at hp
  rcases List.pairwise_cons.1 hp with ⟨h1, _⟩
  rcases h1 (accOf "B") (by simp) with h | ⟨_, hlt⟩
  · exact absurd h (by decide)
  · exact absurd (String.lt_iff_toList_lt.1 hlt) (by decide)

/-- Claim C8, amended: the flagged-accounts list is sorted by risk score
descending, and accounts with equal risk score appear in node first-insertion
order (Python's stable sort), not in ascending identifier order. -/
theorem C8_sorted_amended (rows : List Row) (pagerank : String → ℚ)
    (community : String → ℕ) (sccs : List (List String))
    (cyclesOf : List String → List (List String)) (h : clean rows ≠ []) :
    List.Sorted (fun x y : Account => y.risk_score ≤ x.risk_score)
        (analyze rows pagerank community sccs cyclesOf).flagged_accounts ∧
      ∀ c : ℚ,
        ((analyze rows pagerank community sccs cyclesOf).flagged_accounts.filter
            fun x => decide (x.risk_score = c)) =
          (flaggedUnsorted (finalAttrs rows pagerank community sccs cyclesOf)).filter
            fun x => decide (x.risk_score = c) := by
  have he : (analyze rows pagerank community sccs cyclesOf).flagged_accounts =
      flaggedSort (flaggedUnsorted (finalAttrs rows pagerank community sccs cyclesOf)) := by
    unfold analyze
    rw [if_neg h]
    rfl
  rw [he]
  exact ⟨flaggedSort_sorted _, fun c => filter_flaggedSort c _⟩

/-- Witness for the amended C8 at the concrete cycle batch `rows3`. -/
theorem C8_sorted_amended_witness :
    clean rows3 ≠ [] ∧
      List.Sorted (fun x y : Account => y.risk_score ≤ x.risk_score)
        (analyze rows3 pr3 comm3 sccs3 cyc3).flagged_accounts :=
  ⟨by decide, (C8_sorted_amended rows3 pr3 comm3 sccs3 cyc3 (by decide)).1⟩

/-! ## Benford statistics (claim C6) -/

/-- The counting fold of `_first_digit_distribution` computes the filtered
length and the per-digit counts of the eligible transactions. -/
theorem digitTally_spec (amounts : List ℚ) :
    (digitTally amounts).2 = (amounts.filter fun a => decide (1 ≤ a)).length ∧
      ∀ d, (digitTally amounts).1 d =
        (amounts.filter fun a => decide (1 ≤ a)).countP
          fun a => decide (firstDigit (⌊a⌋).toNat = d) := by
  have key : ∀ (l : List ℚ) (ct : (ℕ → ℕ) × ℕ),
      (l.foldl
        (fun ct a =>
          if 1 ≤ a then
            (Function.update ct.1 (firstDigit (⌊a⌋).toNat)
                (ct.1 (firstDigit (⌊a⌋).toNat) + 1),
              ct.2 + 1)
          else ct)
        ct).2 = ct.2 + (l.filter fun a => decide (1 ≤ a)).length ∧
      ∀ d, (l.foldl
        (fun ct a =>
          if 1 ≤ a then
            (Function.update ct.1 (firstDigit (⌊a⌋).toNat)
                (ct.1 (firstDigit (⌊a⌋).toNat) + 1),
              ct.2 + 1)
          else ct)
        ct).1 d = ct.1 d +
          (l.filter fun a => decide (1 ≤ a)).countP
            fun a => decide (firstDigit (⌊a⌋).toNat = d) := by
    intro l
    induction l with
    | nil => intro ct; exact ⟨by simp, fun d => by simp⟩
    | cons a l ih =>
      intro ct
      by_cases ha : 1 ≤ a
      · constructor
        · rw [List.foldl_cons, if_pos ha, (ih _).1,
            List.filter_cons_of_pos (by simpa using ha)]
          simp [Nat.add_comm, Nat.add_assoc, Nat.add_left_comm]
        · intro d
          rw [List.foldl_cons, if_pos ha, (ih _).2 d,
            List.filter_cons_of_pos (by simpa using ha), List.countP_cons]
          by_cases hd : firstDigit (⌊a⌋).toNat = d
          · subst hd
            simp [Function.update_same]
            omega
          · simp [Function.update_noteq fun hh => hd hh.symm, hd]
      · constructor
        · rw [List.foldl_cons, if_neg ha, (ih _).1,
            List.filter_cons_of_neg (by simpa using ha)]
        · intro d
          rw [List.foldl_cons, if_neg ha, (ih _).2 d,
            List.filter_cons_of_neg (by simpa using ha)]
  have h := key amounts (fun _ => 0, 0)
  rw [digitTally]
  exact ⟨by simpa using h.1, fun d => by simpa using h.2 d⟩

/-- The code's empirical frequency agrees with the spec-style formula. -/
theorem empirical_eq_spec (amounts : List ℚ) (d : ℕ) :
    empirical amounts d = empiricalSpec amounts d := by
  rcases digitTally_spec amounts with ⟨h2, h1⟩
  rw [empirical, empiricalSpec, h2, h1 d]

/-- Positivity of the Benford expectation for digits 1 through 9. -/
theorem benfordExpected_pos {d : ℕ} (hd : 1 ≤ d) : 0 < benfordExpected d := by
  rw [benfordExpected]
  apply Real.logb_pos (by norm_num)
  have : (0 : ℝ) < 1 / (d : ℝ) := by positivity
  linarith

/-- The nine Benford expectations sum to 1 (the telescoping product of
`(d+1)/d` over digits 1 through 9 is 10). -/
theorem benfordExpected_sum :
    (∑ d in Finset.Icc (1 : ℕ) 9, benfordExpected d) = 1 := by
  have hstep : ∀ d ∈ Finset.Icc (1 : ℕ) 9,
      benfordExpected d = Real.log (((d : ℝ) + 1) / d) / Real.log 10 := by
    intro d hd
    have hd1 : 1 ≤ d := (Finset.mem_Icc.1 hd).1
    have hdne : (d : ℝ) ≠ 0 := by
      have : 0 < d := hd1
      positivity
    rw [benfordExpected, Real.logb]
    congr 1
    rw [add_div, div_self hdne, add_comm]
  rw [Finset.sum_congr rfl hstep, ← Finset.sum_div,
    ← Real.log_prod _ _ (fun d hd => by
      have hd1 : 1 ≤ d := (Finset.mem_Icc.1 hd).1
      have : (0 : ℝ) < d := by exact_mod_cast hd1
      positivity)]
  have hprod : (∏ d in Finset.Icc (1 : ℕ) 9, (((d : ℝ) + 1) / d)) = 10 := by
    rw [show Finset.Icc (1 : ℕ) 9 = {1, 2, 3, 4, 5, 6, 7, 8, 9} from by decide]
    norm_num [Finset.prod_insert, Finset.mem_insert]
  rw [hprod, div_self (ne_of_gt (Real.log_pos (by norm_num)))]

/-- Claim C6, counterexample: 100 cleaned transactions of amount 1/2.  No
transaction has `amount ≥ 1`, so the claim says the reported deviation is 0;
but the code's guard counts all transactions (`len(amounts) < 100` fails),
the empirical distribution degenerates to all zeros, and the reported
deviation is `round4(Σ_d x(d)) = 1`. -/
theorem C6_benford_cex :
    ((amountsHalf.filter fun a => decide (1 ≤ a)).length = 0) ∧
      amountsHalf.length = 100 ∧ benfordDeviation amountsHalf = 1 := by
  refine ⟨by decide, by decide, ?_⟩
  have hemp : ∀ d, empirical amountsHalf d = 0 := by
    intro d
    rw [empirical_eq_spec, empiricalSpec]
    rw [show ((amountsHalf.filter fun a => decide (1 ≤ a)).length = 0) from by decide]
    simp
  rw [benfordDeviation, if_neg (by decide)]
  have hterm : ∀ d ∈ Finset.Icc (1 : ℕ) 9,
      ((empirical amountsHalf d : ℝ) - benfordExpected d) ^ 2 / benfordExpected d =
        benfordExpected d := by
    intro d hd
    have hd1 : 1 ≤ d := (Finset.mem_Icc.1 hd).1
    have hpos := benfordExpected_pos hd1
    rw [hemp d]
    push_cast
    rw [zero_sub, neg_sq, sq, mul_div_assoc, div_self (ne_of_gt hpos), mul_one]
  rw [Finset.sum_congr rfl hterm, benfordExpected_sum, roundTo4R]
  rw [show ((1 : ℝ) * 10000) = ((10000 : ℤ) : ℝ) from by norm_num, round_intCast]
  norm_num

/-- Claim C6, amended: the guard counts all cleaned transactions, not only
those with `amount ≥ 1`.  When the batch has fewer than 100 transactions the
deviation is 0; when it has at least 100, the reported value is
`round4(Σ_d (e(d) − x(d))² / x(d))` where `e(d)` is the first-digit
frequency over the subset with `amount ≥ 1` (identically zero when that
subset is empty). -/
theorem C6_benford_amended (amounts : List ℚ) :
    (amounts.length < 100 → benfordDeviation amounts = 0) ∧
      (100 ≤ amounts.length →
        benfordDeviation amounts = roundTo4R (∑ d in Finset.Icc (1 : ℕ) 9,
          ((empiricalSpec amounts d : ℝ) - benfordExpected d) ^ 2 /
            benfordExpected d)) := by
  constructor
  · intro h
    rw [benfordDeviation, if_pos h]
  · intro h
    rw [benfordDeviation, if_neg (by omega)]
    congr 1
    refine Finset.sum_congr rfl fun d _ => ?_
    rw [empirical_eq_spec]

/-- Witness for the amended C6 at the 100-halves batch. -/
theorem C6_benford_amended_witness :
    100 ≤ amountsHalf.length ∧
      benfordDeviation amountsHalf = roundTo4R (∑ d in Finset.Icc (1 : ℕ) 9,
        ((empiricalSpec amountsHalf d : ℝ) - benfordExpected d) ^ 2 /
          benfordExpected d) :=
  ⟨by decide, (C6_benford_amended amountsHalf).2 (by decide)⟩

end Rift
